import Mathlib

set_option linter.unusedVariables false

/-
Verification development for the erys notebook editor.

The definitions below are a shallow embedding of the notebook document
model of the repository:
  * serialization:  src/code_cell.py      CodeCell.from_nb / CodeCell.to_nb
                    src/markdown_cell.py  MarkdownCell.from_nb / MarkdownCell.to_nb
                    src/notebook.py       Notebook.load_notebook / Notebook.to_nb
  * structure:      src/notebook.py       connect_widget, add_cell, action_delete_cell,
                    action_move_up, action_move_down, action_merge_cells,
                    action_paste_cell, switch_cell_type
                    src/cell.py           Cell.disconnect, Cell.merge_cells_with_self,
                    SplitTextArea.action_split_cell
  * collapse:       src/code_cell.py      CodeCell.action_collapse
  * execution:      src/code_cell.py      CodeCell.run_cell

Cells of a live document are identified by a Nat (standing for the widget
object); the doubly linked prev/next pointers are two maps from cell id to
optional cell id, and the mounted order of the cell container is a list of
cell ids.  Python strings are modelled as lists of characters.
-/

namespace Erys

abbrev Txt := List Char

inductive CellKind where
  | code
  | markdown
  deriving DecidableEq, Repr

/-! Serialization model: notebook JSON records. -/

inductive JVal where
  | str (s : String)
  | num (n : Int)
  | boolean (b : Bool)
  | obj (fields : List (String × JVal))

abbrev Meta := List (String × JVal)

inductive OutRec where
  | stream (name : String) (text : List String)
  | errOut (ename evalue : String) (traceback : List String)
  | execResult (executionCount : Option Int) (data : List (String × JVal))
  | displayData (data : List (String × JVal)) (metadata : List (String × JVal))

/-- A cell source read from disk is either a single string or a list of
line fragments (already carrying their newlines). -/
inductive SourceVal where
  | one (s : Txt)
  | lines (ls : List Txt)

/-- Fragments are concatenated with no separator: this is the
`"".join(source)` step of `from_nb`. -/
def joinSource : SourceVal → Txt
  | .one s => s
  | .lines ls => ls.flatten

/-- An in-memory cell: the fields of `CodeCell` resp. `MarkdownCell` that
serialization reads and writes. -/
inductive NCell where
  | codeC (text : Txt) (outputs : List OutRec) (execCount : Option Int)
      (metadata : Meta) (cellId : String)
  | mdC (text : Txt) (metadata : Meta) (cellId : String)

def cellIdOf : NCell → String
  | .codeC _ _ _ _ cid => cid
  | .mdC _ _ cid => cid

/-- A raw cell record of the on-disk JSON: each field is `none` when the
key is absent from the record. -/
structure RawCell where
  cell_type : Option String := none
  execution_count : Option (Option Int) := none
  metadata : Option Meta := none
  source : Option SourceVal := none
  outputs : Option (List OutRec) := none
  id : Option String := none

/-- `cell_id or get_cell_id()` of the cell constructors: a missing or empty
(falsy) id is replaced by a freshly generated one. -/
def orFresh (given : Option String) (fresh : String) : String :=
  match given with
  | none => fresh
  | some s => if s = "" then fresh else s

/-- `CodeCell.from_nb`: asserts the required keys `cell_type`,
`execution_count`, `metadata`, `source`, `outputs` are present and that
`cell_type == "code"`; `none` is the AssertionError. -/
def codeFromNb (nb : RawCell) (fresh : String) : Option NCell :=
  match nb.cell_type, nb.execution_count, nb.metadata, nb.source, nb.outputs with
  | some ct, some ec, some md, some src, some outs =>
    if ct = "code" then
      some (.codeC (joinSource src) outs ec md (orFresh nb.id fresh))
    else
      none
  | _, _, _, _, _ => none

/-- `MarkdownCell.from_nb`: asserts `cell_type`, `metadata`, `source` are
present and `cell_type == "markdown"`. -/
def mdFromNb (nb : RawCell) (fresh : String) : Option NCell :=
  match nb.cell_type, nb.metadata, nb.source with
  | some ct, some md, some src =>
    if ct = "markdown" then
      some (.mdC (joinSource src) md (orFresh nb.id fresh))
    else
      none
  | _, _, _ => none

/-- `CodeCell.to_nb` / `MarkdownCell.to_nb`: a single string is always
written for `source`; the markdown record carries no `execution_count` or
`outputs` key. -/
def cellToNb : NCell → RawCell
  | .codeC t outs ec md cid =>
    { cell_type := some "code", execution_count := some ec,
      metadata := some md, source := some (.one t),
      outputs := some outs, id := some cid }
  | .mdC t md cid =>
    { cell_type := some "markdown", metadata := some md,
      source := some (.one t), id := some cid }

/-- The loop body of `Notebook.load_notebook`, one iteration per record of
`content["cells"]`.  `ids` supplies the result of each `get_cell_id()`
call.  The second argument is the current value of the local variable
`widget`: on a record whose `cell_type` is neither `"code"` nor
`"markdown"` no branch assigns `widget`, so at index 0 the following use
raises a NameError; at a later index the stale previous widget is reused —
its pointers are written into a self-loop and it is passed to `mount`
again, which Textual's registry and child-list membership guards silently
ignore, so the container order is unchanged and the record contributes no
cell. -/
def loadCellsGo (ids : Nat → String) :
    Nat → Option NCell → List NCell → List RawCell → Except String (List NCell)
  | _, _, acc, [] => .ok acc.reverse
  | idx, w?, acc, r :: rest =>
    match r.cell_type with
    | none => .error "KeyError: cell_type"
    | some t =>
      if t = "code" then
        match codeFromNb r (ids idx) with
        | some c => loadCellsGo ids (idx + 1) (some c) (c :: acc) rest
        | none => .error "AssertionError: bad code cell record"
      else if t = "markdown" then
        match mdFromNb r (ids idx) with
        | some c => loadCellsGo ids (idx + 1) (some c) (c :: acc) rest
        | none => .error "AssertionError: bad markdown cell record"
      else
        match w? with
        | none => .error "NameError: widget referenced before assignment"
        | some w => loadCellsGo ids (idx + 1) (some w) acc rest

def loadCells (ids : Nat → String) (cellRecords : List RawCell) :
    Except String (List NCell) :=
  loadCellsGo ids 0 none [] cellRecords

/-- Top level of the on-disk notebook record. -/
structure NbRecord where
  metadata : Meta := []
  nbformat : Int := 4
  nbformat_minor : Int := 5
  cells : List RawCell := []

/-- `Notebook.load_notebook`: only `content["cells"]` is read; the top
level metadata of the loaded record is never stored. -/
def loadNotebook (ids : Nat → String) (content : NbRecord) :
    Except String (List NCell) :=
  loadCells ids content.cells

/-- `Notebook.to_nb`: the top level metadata is rebuilt from the kernel
description; the cells are serialized in container order. -/
def notebookToNb (kernelInfo kernelSpec languageInfo : Meta) (nbf nbfm : Int)
    (cells : List NCell) : NbRecord :=
  { metadata := [("kernel_info", .obj kernelInfo), ("kernel_spec", .obj kernelSpec),
                 ("language_info", .obj languageInfo)],
    nbformat := nbf, nbformat_minor := nbfm,
    cells := cells.map cellToNb }

/-- A cell record that declares cell type code or markdown but misses one
of the keys `from_nb` requires for that type, or has no `cell_type` key at
all. -/
def missingRequired (r : RawCell) : Prop :=
  r.cell_type = none
  ∨ (r.cell_type = some "code"
      ∧ (r.execution_count.isNone ∨ r.metadata.isNone ∨ r.source.isNone
          ∨ r.outputs.isNone))
  ∨ (r.cell_type = some "markdown" ∧ (r.metadata.isNone ∨ r.source.isNone))

instance (r : RawCell) : Decidable (missingRequired r) :=
  inferInstanceAs (Decidable (_ ∨ _ ∨ _))

/-! Collapse state of a code cell: the `collapsed` flags of the
`CollapseLabel` and the `OutputCollapseLabel`. -/

structure CollapseFlags where
  codeCollapsed : Bool
  outputCollapsed : Bool
  deriving DecidableEq, Repr

/-- `CodeCell.action_collapse`. -/
def actionCollapse (s : CollapseFlags) : CollapseFlags :=
  if !s.codeCollapsed || !s.outputCollapsed then
    { codeCollapsed := true, outputCollapsed := true }
  else
    { codeCollapsed := !s.codeCollapsed, outputCollapsed := !s.outputCollapsed }

/-! Running a code cell. -/

structure RunCellSt where
  source : Txt
  text : Txt
  outputs : List OutRec
  execCount : Option Int
  running : Bool

structure KernelSt where
  initialized : Bool

/-- `CodeCell.run_cell`.  `krun` is the external kernel; the result is the
final cell state, whether the kernel was invoked, and the sequence of
values assigned to the `running` flag during the call. -/
def runCell (k : KernelSt) (krun : Txt → List OutRec × Option Int)
    (s : RunCellSt) : RunCellSt × Bool × List Bool :=
  if k.initialized = false then
    (s, false, [])
  else
    let s1 : RunCellSt := { s with source := s.text }
    if s1.source.isEmpty then
      (s1, false, [])
    else
      let r := krun s1.source
      ({ s1 with running := false, execCount := r.2, outputs := r.1 },
        true, [true, false])

/-! The live document: mounted cell order plus the doubly linked pointers. -/

structure Doc where
  cells : List Nat
  nextp : Nat → Option Nat
  prevp : Nat → Option Nat
  kindOf : Nat → CellKind
  textOf : Nat → Txt
  lf : Option Nat

/-- Pointwise update of a map, modelling an attribute assignment. -/
def upd {α : Type} (f : Nat → α) (x : Nat) (v : α) : Nat → α :=
  fun y => if y = x then v else f y

inductive RelPos where
  | after
  | before
  deriving DecidableEq, Repr

/-- `container.mount(w, after=x)`: insert right after the first occurrence
of `x`. -/
def insertAfterId : List Nat → Nat → Nat → List Nat
  | [], _, _ => []
  | a :: rest, x, w => if a = x then a :: w :: rest else a :: insertAfterId rest x w

/-- `container.mount(w, before=x)`. -/
def insertBeforeId : List Nat → Nat → Nat → List Nat
  | [], _, _ => []
  | a :: rest, x, w => if a = x then w :: a :: rest else a :: insertBeforeId rest x w

/-- `widget.remove()`: drop the first occurrence. -/
def eraseId : List Nat → Nat → List Nat
  | [], _ => []
  | a :: rest, x => if a = x then rest else a :: eraseId rest x

/-- Mounting relative to the last focused cell; `mount(w, after=None)`
appends at the end. -/
def mountRel (cells : List Nat) (lf : Option Nat) (w : Nat) (pos : RelPos) :
    List Nat :=
  match lf with
  | none => cells ++ [w]
  | some l =>
    match pos with
    | .after => insertAfterId cells l w
    | .before => insertBeforeId cells l w

/-- `Notebook.connect_widget`: splice `w`'s pointers next to the last
focused cell; with no last focused cell only the focus is set. -/
def connectWidget (d : Doc) (w : Nat) (pos : RelPos) : Doc :=
  match d.lf with
  | none => { d with lf := some w }
  | some l =>
    match pos with
    | .after =>
      let nxt := d.nextp l
      let nm := upd (upd d.nextp l (some w)) w nxt
      let pm1 := upd d.prevp w (some l)
      let pm :=
        match nxt with
        | some n => upd pm1 n (some w)
        | none => pm1
      { d with nextp := nm, prevp := pm }
    | .before =>
      let prv := d.prevp l
      let pm := upd (upd d.prevp l (some w)) w prv
      let nm1 := upd d.nextp w (some l)
      let nm :=
        match prv with
        | some p => upd nm1 p (some w)
        | none => nm1
      { d with nextp := nm, prevp := pm }

/-- A freshly constructed cell widget: the class attributes `next` and
`prev` are `None`. -/
def newCellPtrs (d : Doc) (w : Nat) : Doc :=
  { d with nextp := upd d.nextp w none, prevp := upd d.prevp w none }

/-- `Notebook.add_cell`: construct, mount relative to the last focused
cell, then `connect_widget`. -/
def addCell (d : Doc) (w : Nat) (k : CellKind) (pos : RelPos) : Doc :=
  let d1 := newCellPtrs { d with cells := mountRel d.cells d.lf w pos,
                                 kindOf := upd d.kindOf w k,
                                 textOf := upd d.textOf w [] } w
  connectWidget d1 w pos

/-- `Notebook.action_paste_cell` with a nonempty clipboard: the pasted
cell gets a new id `w` (`set_new_id`), is mounted after the last focused
cell and connected. -/
def pasteCell (d : Doc) (w : Nat) (k : CellKind) (t : Txt) : Doc :=
  let d1 := newCellPtrs { d with cells := mountRel d.cells d.lf w .after,
                                 kindOf := upd d.kindOf w k,
                                 textOf := upd d.textOf w t } w
  connectWidget d1 w .after

/-- `Cell.disconnect`: relink the neighbours around `c` and return the
cell to focus next (the successor wins when both neighbours exist). -/
def disconnectD (d : Doc) (c : Nat) : Doc × Option Nat :=
  let s1 :=
    match d.prevp c with
    | some p => ({ d with nextp := upd d.nextp p (d.nextp c) }, some p)
    | none => (d, none)
  match d.nextp c with
  | some n => ({ s1.1 with prevp := upd s1.1.prevp n (d.prevp c) }, some n)
  | none => s1

/-- `disconnect` followed by `widget.remove()`. -/
def removeCell (d : Doc) (c : Nat) : Doc × Option Nat :=
  let s := disconnectD d c
  ({ s.1 with cells := eraseId s.1.cells c }, s.2)

/-- `Notebook.action_delete_cell`. -/
def deleteCell (d : Doc) : Doc :=
  match d.lf with
  | none => d
  | some c =>
    let s := removeCell d c
    { s.1 with lf := s.2 }

/-- `Notebook.action_move_up`: clone-and-replace pointer surgery, remove
the original, then mount the clone before its new successor.  The clone
carries the same id, so it is the same `Nat` here. -/
def moveUp (d : Doc) : Doc :=
  match d.lf with
  | none => d
  | some c =>
    match d.prevp c with
    | none => d
    | some p =>
      let cnext := d.nextp c
      let nm1 := upd d.nextp p cnext
      let pm1 :=
        match cnext with
        | some n => upd d.prevp n (some p)
        | none => d.prevp
      let a? := pm1 p
      let nm2 :=
        match a? with
        | some a => upd nm1 a (some c)
        | none => nm1
      let pm2 := upd pm1 c a?
      let nm3 := upd nm2 c (some p)
      let pm3 := upd pm2 p (some c)
      let cells1 := eraseId d.cells c
      let cells2 := insertBeforeId cells1 p c
      { d with cells := cells2, nextp := nm3, prevp := pm3, lf := some c }

/-- `Notebook.action_move_down`: the clone is mounted after its new
predecessor before the original is removed. -/
def moveDown (d : Doc) : Doc :=
  match d.lf with
  | none => d
  | some c =>
    match d.nextp c with
    | none => d
    | some n =>
      let cprev := d.prevp c
      let pm1 := upd d.prevp n cprev
      let nm1 :=
        match cprev with
        | some p => upd d.nextp p (some n)
        | none => d.nextp
      let q? := nm1 n
      let pm2 :=
        match q? with
        | some q => upd pm1 q (some c)
        | none => pm1
      let pm3 := upd pm2 c (some n)
      let nm2 := upd nm1 c q?
      let nm3 := upd nm2 n (some c)
      let cells1 := insertAfterId d.cells n c
      let cells2 := eraseId cells1 c
      { d with cells := cells2, nextp := nm3, prevp := pm3, lf := some c }

/-- `SplitTextArea.action_split_cell` at character offset `k` of the
focused cell: the cell keeps the prefix, a new cell `w` of the same kind
holding the rest is mounted after it and connected. -/
def splitCell (d : Doc) (w : Nat) (k : Nat) : Doc :=
  match d.lf with
  | none => d
  | some c =>
    let keep := (d.textOf c).take k
    let rest := (d.textOf c).drop k
    let d1 := newCellPtrs { d with textOf := upd (upd d.textOf c keep) w rest,
                                   kindOf := upd d.kindOf w (d.kindOf c),
                                   cells := insertAfterId d.cells c w } w
    connectWidget d1 w .after

/-- `Notebook.switch_cell_type`.  On a markdown cell the very first read
`self.last_focused.input_text.text` raises AttributeError (MarkdownCell
has `text_area`, not `input_text`), before any mutation. -/
def switchType (d : Doc) (w : Nat) : Doc :=
  match d.lf with
  | none => d
  | some c =>
    match d.kindOf c with
    | .markdown => d
    | .code =>
      let src := d.textOf c
      let d1 := newCellPtrs { d with cells := insertAfterId d.cells c w,
                                     kindOf := upd d.kindOf w .markdown,
                                     textOf := upd d.textOf w src } w
      let d2 := connectWidget d1 w .after
      let s := removeCell d2 c
      { s.1 with lf := some w }

/-- Reading the text of a cell being merged into a target of kind `tk`.
`Cell.merge_cells_with_self` (code target) reads `cell.input_text`, which
a MarkdownCell does not have; `MarkdownCell.merge_cells_with_self` reads
`cell.code_area` for code cells, an attribute no class defines.  `none`
is the AttributeError. -/
def readMergeText (d : Doc) (tk : CellKind) (c : Nat) : Option Txt :=
  match tk, d.kindOf c with
  | .code, .code => some (d.textOf c)
  | .code, .markdown => none
  | .markdown, .code => none
  | .markdown, .markdown => some (d.textOf c)

/-- The merge loop: for each cell append a newline and its text to the
accumulator, disconnect and remove it; an AttributeError aborts the loop
with the document as mutated so far and the target text not yet written. -/
def mergeLoop (tk : CellKind) : Doc → Txt → List Nat → Doc × Txt × Bool
  | d, acc, [] => (d, acc, true)
  | d, acc, c :: rest =>
    let acc1 := acc ++ ['\n']
    match readMergeText d tk c with
    | none => (d, acc1, false)
    | some t => mergeLoop tk (removeCell d c).1 (acc1 ++ t) rest

/-- `Notebook.action_merge_cells` on merge list `target :: others`: a
no-op with fewer than two selected cells; on success the combined source
is written into the target and the target is focused. -/
def mergeCells (d : Doc) (target : Nat) (others : List Nat) : Doc × Bool :=
  match others with
  | [] => (d, true)
  | _ :: _ =>
    let r := mergeLoop (d.kindOf target) d (d.textOf target) others
    if r.2.2 then
      ({ r.1 with textOf := upd r.1.textOf target r.2.1, lf := some target }, true)
    else
      (r.1, false)

/-! The structural operations of the spec, as one alphabet. -/

inductive DocOp where
  | insertA (w : Nat) (k : CellKind)
  | insertB (w : Nat) (k : CellKind)
  | del
  | mvUp
  | mvDown
  | mergeO (target : Nat) (others : List Nat)
  | splitO (w : Nat) (k : Nat)
  | switchO (w : Nat)
  | pasteO (clip : Option (CellKind × Txt)) (w : Nat)

def applyOp (d : Doc) : DocOp → Doc
  | .insertA w k => addCell d w k .after
  | .insertB w k => addCell d w k .before
  | .del => deleteCell d
  | .mvUp => moveUp d
  | .mvDown => moveDown d
  | .mergeO t os => (mergeCells d t os).1
  | .splitO w k => splitCell d w k
  | .switchO w => switchType d w
  | .pasteO none _ => d
  | .pasteO (some (k, t)) w => pasteCell d w k t

/-- Side conditions of an operation: newly created widgets are distinct
from every mounted cell, and the merge selection consists of distinct
mounted cells. -/
def opOk (d : Doc) : DocOp → Prop
  | .insertA w _ => w ∉ d.cells
  | .insertB w _ => w ∉ d.cells
  | .del => True
  | .mvUp => True
  | .mvDown => True
  | .mergeO _ os => (∀ x ∈ os, x ∈ d.cells) ∧ os.Nodup
  | .splitO w _ => w ∉ d.cells
  | .switchO w => w ∉ d.cells
  | .pasteO _ w => w ∉ d.cells

def headO (l : List Nat) (nv : Option Nat) : Option Nat :=
  match l with
  | [] => nv
  | x :: _ => some x

def lastO : List Nat → Option Nat → Option Nat
  | [], pv => pv
  | x :: xs, _ => lastO xs (some x)

/-- The pointer maps trace the list `l` as a doubly linked segment whose
outer neighbours are `pv` and `nv`. -/
def seg (pm nm : Nat → Option Nat) : Option Nat → List Nat → Option Nat → Prop
  | _, [], _ => True
  | pv, x :: xs, nv => pm x = pv ∧ nm x = headO xs nv ∧ seg pm nm (some x) xs nv

/-- The central invariant: the mounted cell order is exactly the doubly
linked chain, with distinct cells. -/
def docInv (d : Doc) : Prop :=
  seg d.prevp d.nextp none d.cells none ∧ d.cells.Nodup

/-- The focus is a mounted cell, or absent only in the empty document. -/
def focusOk (d : Doc) : Prop :=
  match d.lf with
  | none => d.cells = []
  | some c => c ∈ d.cells

/-- The claimed neighbour agreement: for adjacent sequence positions the
pointers of the two cells point at each other. -/
def adjAgrees (d : Doc) : Prop :=
  ∀ i p c, d.cells[i]? = some p → d.cells[i + 1]? = some c →
    d.nextp p = some c ∧ d.prevp c = some p

def segDecAux (pm nm : Nat → Option Nat) :
    (pv : Option Nat) → (l : List Nat) → (nv : Option Nat) →
    Decidable (seg pm nm pv l nv)
  | _, [], _ => isTrue trivial
  | pv, x :: xs, nv =>
    have : Decidable (seg pm nm (some x) xs nv) := segDecAux pm nm (some x) xs nv
    inferInstanceAs (Decidable (_ ∧ _ ∧ _))

instance (pm nm : Nat → Option Nat) (pv : Option Nat) (l : List Nat)
    (nv : Option Nat) : Decidable (seg pm nm pv l nv) :=
  segDecAux pm nm pv l nv

instance (d : Doc) : Decidable (docInv d) :=
  inferInstanceAs (Decidable (_ ∧ _))

instance (d : Doc) : Decidable (focusOk d) :=
  match h : d.lf with
  | none => decidable_of_iff (d.cells = []) (by simp [focusOk, h])
  | some c => decidable_of_iff (c ∈ d.cells) (by simp [focusOk, h])

def opOkDec (d : Doc) : (o : DocOp) → Decidable (opOk d o)
  | .insertA w _ => inferInstanceAs (Decidable (w ∉ d.cells))
  | .insertB w _ => inferInstanceAs (Decidable (w ∉ d.cells))
  | .del => isTrue trivial
  | .mvUp => isTrue trivial
  | .mvDown => isTrue trivial
  | .mergeO _ os => inferInstanceAs (Decidable (_ ∧ _))
  | .splitO w _ => inferInstanceAs (Decidable (w ∉ d.cells))
  | .switchO w => inferInstanceAs (Decidable (w ∉ d.cells))
  | .pasteO _ w => inferInstanceAs (Decidable (w ∉ d.cells))

instance (d : Doc) (o : DocOp) : Decidable (opOk d o) := opOkDec d o

/-! Concrete documents and records used by witnesses and counterexamples. -/

/-- A three cell document 1 ↔ 2 ↔ 3 with cell 2 focused. -/
def dThree : Doc :=
  { cells := [1, 2, 3],
    nextp := fun y => [(1, 2), (2, 3)].lookup y,
    prevp := fun y => [(2, 1), (3, 2)].lookup y,
    kindOf := fun _ => .code,
    textOf := fun y => if y = 1 then ['a'] else if y = 2 then ['b', 'c'] else ['d'],
    lf := some 2 }

/-- A code cell followed by a markdown cell, code cell focused. -/
def dMergeEx : Doc :=
  { cells := [1, 2],
    nextp := fun y => [(1, 2)].lookup y,
    prevp := fun y => [(2, 1)].lookup y,
    kindOf := fun y => if y = 1 then .code else .markdown,
    textOf := fun y => if y = 1 then ['1'] else ['x'],
    lf := some 1 }

def sampleCells : List NCell :=
  [ .codeC ['p'] [] (some 1) [("tag", .str "t")] "idA",
    .mdC ['q'] [("k2", .str "v")] "idB" ]

def goodCodeRaw : RawCell :=
  { cell_type := some "code", execution_count := some none, metadata := some [],
    source := some (.one ['a']), outputs := some [], id := some "i1" }

def goodCodeCell : NCell := .codeC ['a'] [] none [] "i1"

/-- A record of an unrecognized cell type with no other keys. -/
def rawTypeRaw : RawCell := { cell_type := some "raw" }

/-- A code cell record whose `source` key is missing. -/
def badCodeRaw : RawCell :=
  { cell_type := some "code", execution_count := some none, metadata := some [],
    outputs := some [], id := some "i2" }

/-- A notebook record with an unknown top level metadata key. -/
def nbCustomMeta : NbRecord :=
  { metadata := [("custom", .str "x")], cells := [] }

def runStEx : RunCellSt :=
  { source := ['z'], text := [], outputs := [.stream "stdout" ["o"]],
    execCount := some 3, running := false }

/-- A notebook record with one markdown cell carrying a custom metadata key. -/
def nbCellMeta : NbRecord :=
  { cells := [{ cell_type := some "markdown",
                metadata := some [("customCell", .str "y")],
                source := some (.one ['m']), id := some "i9" }] }

/-- The in-memory cell the record of `nbCellMeta` loads to. -/
def mdMetaCell : NCell := .mdC ['m'] [("customCell", .str "y")] "i9"

/-- A good code cell record followed by a record of an unknown cell type. -/
def nbGoodThenRaw : NbRecord := { cells := [goodCodeRaw, rawTypeRaw] }

/-- A notebook whose only cell record misses the `source` key. -/
def nbBadCode : NbRecord := { cells := [badCodeRaw] }

/-! Basic facts about `upd`, the list splicing primitives and `seg`. -/

theorem upd_same {α : Type} (f : Nat → α) (x : Nat) (v : α) : upd f x v x = v := by
  simp [upd]

theorem upd_ne {α : Type} (f : Nat → α) (x : Nat) (v : α) {y : Nat} (h : y ≠ x) :
    upd f x v y = f y := by
  simp [upd, h]

theorem headO_append (l₁ l₂ : List Nat) (nv : Option Nat) :
    headO (l₁ ++ l₂) nv = headO l₁ (headO l₂ nv) := by
  cases l₁ <;> rfl

theorem lastO_append (l₁ l₂ : List Nat) (pv : Option Nat) :
    lastO (l₁ ++ l₂) pv = lastO l₂ (lastO l₁ pv) := by
  induction l₁ generalizing pv with
  | nil => rfl
  | cons x xs ih => simpa [lastO] using ih (some x)

theorem insertAfterId_eq {l₁ l₂ : List Nat} {x : Nat} (hx : x ∉ l₁) (w : Nat) :
    insertAfterId (l₁ ++ x :: l₂) x w = l₁ ++ x :: w :: l₂ := by
  induction l₁ with
  | nil => simp [insertAfterId]
  | cons a as ih =>
    have hax : a ≠ x := fun h => hx (h ▸ List.mem_cons_self a as)
    have ih' := ih (fun h => hx (List.mem_cons_of_mem a h))
    simp [insertAfterId, hax, ih']

theorem insertBeforeId_eq {l₁ l₂ : List Nat} {x : Nat} (hx : x ∉ l₁) (w : Nat) :
    insertBeforeId (l₁ ++ x :: l₂) x w = l₁ ++ w :: x :: l₂ := by
  induction l₁ with
  | nil => simp [insertBeforeId]
  | cons a as ih =>
    have hax : a ≠ x := fun h => hx (h ▸ List.mem_cons_self a as)
    have ih' := ih (fun h => hx (List.mem_cons_of_mem a h))
    simp [insertBeforeId, hax, ih']

theorem eraseId_eq {l₁ l₂ : List Nat} {x : Nat} (hx : x ∉ l₁) :
    eraseId (l₁ ++ x :: l₂) x = l₁ ++ l₂ := by
  induction l₁ with
  | nil => simp [eraseId]
  | cons a as ih =>
    have hax : a ≠ x := fun h => hx (h ▸ List.mem_cons_self a as)
    have ih' := ih (fun h => hx (List.mem_cons_of_mem a h))
    simp [eraseId, hax, ih']

theorem mem_eraseId {l : List Nat} {x c : Nat} (hne : x ≠ c) :
    x ∈ eraseId l c ↔ x ∈ l := by
  induction l with
  | nil => simp [eraseId]
  | cons a as ih =>
    by_cases hac : a = c
    · subst hac
      simp [eraseId, ih, hne]
    · simp [eraseId, hac, ih]

theorem seg_congr {pm nm pm' nm' : Nat → Option Nat} {pv nv : Option Nat}
    {l : List Nat} (h : seg pm nm pv l nv)
    (hsame : ∀ x ∈ l, pm' x = pm x ∧ nm' x = nm x) :
    seg pm' nm' pv l nv := by
  induction l generalizing pv with
  | nil => trivial
  | cons x xs ih =>
    obtain ⟨h1, h2, h3⟩ := h
    exact ⟨(hsame x (by simp)).1.trans h1, (hsame x (by simp)).2.trans h2,
      ih h3 (fun y hy => hsame y (by simp [hy]))⟩

theorem seg_split {pm nm : Nat → Option Nat} {pv nv : Option Nat} {l₁ l₂ : List Nat}
    (h : seg pm nm pv (l₁ ++ l₂) nv) :
    seg pm nm pv l₁ (headO l₂ nv) ∧ seg pm nm (lastO l₁ pv) l₂ nv := by
  induction l₁ generalizing pv with
  | nil => exact ⟨trivial, h⟩
  | cons x xs ih =>
    rw [List.cons_append] at h
    obtain ⟨h1, h2, h3⟩ := h
    obtain ⟨ha, hb⟩ := ih h3
    refine ⟨⟨h1, ?_, ha⟩, ?_⟩
    · rw [h2, headO_append]
    · simpa [lastO] using hb

theorem seg_join {pm nm : Nat → Option Nat} {pv nv : Option Nat} {l₁ l₂ : List Nat}
    (h1 : seg pm nm pv l₁ (headO l₂ nv))
    (h2 : seg pm nm (lastO l₁ pv) l₂ nv) :
    seg pm nm pv (l₁ ++ l₂) nv := by
  induction l₁ generalizing pv with
  | nil => exact h2
  | cons x xs ih =>
    obtain ⟨ha, hb, hc⟩ := h1
    rw [List.cons_append]
    exact ⟨ha, by rw [hb, headO_append], ih hc (by simpa [lastO] using h2)⟩

theorem seg_adj {pm nm : Nat → Option Nat} {pv nv : Option Nat} {l : List Nat}
    (h : seg pm nm pv l nv) :
    ∀ i p c, l[i]? = some p → l[i + 1]? = some c →
      nm p = some c ∧ pm c = some p := by
  induction l generalizing pv with
  | nil => intro i p c hp _; simp at hp
  | cons x xs ih =>
    intro i p c hp hc
    obtain ⟨h1, h2, h3⟩ := h
    cases i with
    | zero =>
      simp only [List.getElem?_cons_zero, Option.some.injEq] at hp
      subst hp
      cases xs with
      | nil => simp at hc
      | cons y ys =>
        simp only [List.getElem?_cons_succ, List.getElem?_cons_zero,
          Option.some.injEq] at hc
        subst hc
        obtain ⟨h4, _, _⟩ := h3
        exact ⟨h2, h4⟩
    | succ j =>
      simp only [List.getElem?_cons_succ] at hp hc
      exact ih h3 j p c hp hc

theorem seg_mem_next {pm nm : Nat → Option Nat} {pv nv : Option Nat} {l : List Nat}
    {c n : Nat} (h : seg pm nm pv l nv) (hc : c ∈ l) (hn : nm c = some n) :
    (∃ l₁, l = l₁ ++ [c] ∧ nv = some n) ∨ ∃ l₁ l₂, l = l₁ ++ c :: n :: l₂ := by
  induction l generalizing pv with
  | nil => cases hc
  | cons x xs ih =>
    obtain ⟨h1, h2, h3⟩ := h
    rcases List.mem_cons.mp hc with rfl | hc'
    · cases xs with
      | nil =>
        left
        have h2' : nm c = nv := by simpa [headO] using h2
        exact ⟨[], by simp, by rw [← h2', hn]⟩
      | cons y ys =>
        right
        have h2' : nm c = some y := by simpa [headO] using h2
        have hy : y = n := Option.some.inj (by rw [← h2', hn])
        exact ⟨[], ys, by simp [hy]⟩
    · rcases ih h3 hc' with ⟨l₁, heq, hnv⟩ | ⟨l₁, l₂, heq⟩
      · left; exact ⟨x :: l₁, by simp [heq], hnv⟩
      · right; exact ⟨x :: l₁, l₂, by simp [heq]⟩

theorem seg_mem_prev {pm nm : Nat → Option Nat} {pv nv : Option Nat} {l : List Nat}
    {c p : Nat} (h : seg pm nm pv l nv) (hc : c ∈ l) (hp : pm c = some p) :
    (∃ l₂, l = c :: l₂ ∧ pv = some p) ∨ ∃ l₁ l₂, l = l₁ ++ p :: c :: l₂ := by
  induction l generalizing pv with
  | nil => cases hc
  | cons x xs ih =>
    obtain ⟨h1, h2, h3⟩ := h
    rcases List.mem_cons.mp hc with rfl | hc'
    · left
      refine ⟨xs, rfl, ?_⟩
      rw [← hp, ← h1]
    · rcases ih h3 hc' with ⟨l₂, heq, hpv⟩ | ⟨l₁, l₂, heq⟩
      · right
        have hx : x = p := Option.some.inj hpv
        exact ⟨[], l₂, by simp [heq, hx]⟩
      · right; exact ⟨x :: l₁, l₂, by simp [heq]⟩

theorem adjAgrees_of_docInv {d : Doc} (h : docInv d) : adjAgrees d :=
  fun i p c hp hc => seg_adj h.1 i p c hp hc

theorem nodup_mid_facts {l₁ l₂ : List Nat} {c : Nat} (h : (l₁ ++ c :: l₂).Nodup) :
    c ∉ l₁ ∧ c ∉ l₂ ∧ (l₁ ++ l₂).Nodup := by
  have h' := List.nodup_middle.mp h
  rw [List.nodup_cons] at h'
  exact ⟨fun hm => h'.1 (by simp [hm]), fun hm => h'.1 (by simp [hm]), h'.2⟩

theorem nodup_mid_disj {l₁ l₂ : List Nat} {c : Nat} (h : (l₁ ++ c :: l₂).Nodup) :
    ∀ x ∈ l₁, x ≠ c ∧ x ∉ l₂ := by
  intro x hx
  rw [List.nodup_append] at h
  exact ⟨fun hxc => h.2.2 hx (by simp [hxc]), fun hxl => h.2.2 hx (by simp [hxl])⟩

theorem nodup_insert_mid {l₁ l₂ : List Nat} {l w : Nat}
    (h : (l₁ ++ l :: l₂).Nodup) (hw : w ∉ l₁ ++ l :: l₂) :
    (l₁ ++ l :: w :: l₂).Nodup := by
  have h1 : l₁ ++ l :: w :: l₂ = (l₁ ++ [l]) ++ w :: l₂ := by simp
  rw [h1, List.nodup_middle, List.nodup_cons]
  constructor
  · intro hmem
    exact hw (by simpa using hmem)
  · simpa using h

/-- `connect_widget` with position after, acting on a document in which the
new cell `w` is already mounted right after the focused cell `l` and the
pointers still trace the old chain. -/
theorem connect_after_inv {d1 : Doc} {w l : Nat} {l₁ l₂ : List Nat}
    (hlf : d1.lf = some l)
    (hc : d1.cells = l₁ ++ l :: w :: l₂)
    (hseg : seg d1.prevp d1.nextp none (l₁ ++ l :: l₂) none)
    (hnd : (l₁ ++ l :: w :: l₂).Nodup) :
    docInv (connectWidget d1 w .after) := by
  obtain ⟨hsegl₁, hseg₂⟩ := seg_split hseg
  obtain ⟨hpl, hnl, hsegl₂⟩ := hseg₂
  -- distinctness facts
  have hmidw := nodup_mid_facts (show ((l₁ ++ [l]) ++ w :: l₂).Nodup by simpa using hnd)
  have hwl₁ : w ∉ l₁ := fun hm => hmidw.1 (by simp [hm])
  have hwl : w ≠ l := fun hm => hmidw.1 (by simp [hm])
  have hwl₂ : w ∉ l₂ := hmidw.2.1
  have hmidl := nodup_mid_facts hnd
  have hll₁ : l ∉ l₁ := hmidl.1
  have hll₂ : l ∉ l₂ := fun hm => hmidl.2.1 (by simp [hm])
  have hd₁ := nodup_mid_disj hnd
  constructor
  · -- the chain
    simp only [connectWidget, hlf]
    cases hl₂ : l₂ with
    | nil =>
      subst hl₂
      have hnone : d1.nextp l = none := by simpa [headO] using hnl
      rw [hnone]
      simp only [hc]
      refine seg_join ?_ ?_
      · exact seg_congr hsegl₁ (fun x hx => by
          have hxw : x ≠ w := fun he => hwl₁ (he ▸ hx)
          have hxl : x ≠ l := (hd₁ x hx).1
          constructor
          · simp [upd, hxw]
          · simp [upd, hxw, hxl])
      · refine ⟨?_, ?_, ?_, ?_, trivial⟩
        · simp [upd, Ne.symm hwl, hpl]
        · simp [upd, Ne.symm hwl, headO]
        · simp [upd, headO]
        · simp [upd, headO, hnone]
    | cons n l₂' =>
      subst hl₂
      have hsome : d1.nextp l = some n := by simpa [headO] using hnl
      rw [hsome]
      simp only [hc]
      obtain ⟨hpn, hnn, hsegn⟩ := hsegl₂
      have hnw : n ≠ w := fun he => hwl₂ (by simp [he])
      have hnl' : n ≠ l := fun he => hll₂ (by simp [he])
      have hmidn := nodup_mid_facts
        (show ((l₁ ++ l :: [w]) ++ n :: l₂').Nodup by simpa using hnd)
      have hnn₂ : n ∉ l₂' := hmidn.2.1
      refine seg_join ?_ ?_
      · exact seg_congr hsegl₁ (fun x hx => by
          have hxw : x ≠ w := fun he => hwl₁ (he ▸ hx)
          have hxl : x ≠ l := (hd₁ x hx).1
          have hxn : x ≠ n := fun he => (hd₁ x hx).2 (by simp [he])
          constructor
          · simp [upd, hxw, hxn]
          · simp [upd, hxw, hxl])
      · refine ⟨?_, ?_, ?_, ?_, ?_, ?_, ?_⟩
        · simp [upd, Ne.symm hwl, Ne.symm hnl', hpl]
        · simp [upd, Ne.symm hwl, headO]
        · simp [upd, Ne.symm hnw, headO]
        · simp [upd, headO]
        · simp [upd, headO]
        · simp [upd, hnw, hnl', headO, hnn]
        · exact seg_congr hsegn (fun x hx => by
            have hxw : x ≠ w := fun he => hwl₂ (List.mem_cons_of_mem n (he ▸ hx))
            have hxl : x ≠ l := fun he => hll₂ (List.mem_cons_of_mem n (he ▸ hx))
            have hxn : x ≠ n := fun he => hnn₂ (he ▸ hx)
            constructor
            · simp [upd, hxw, hxn]
            · simp [upd, hxw, hxl])
  · simp only [connectWidget, hlf]
    cases d1.nextp l with
    | none => simpa [hc] using hnd
    | some n => simpa [hc] using hnd

/-- `connect_widget` with position before, acting on a document in which
the new cell `w` is already mounted right before the focused cell `l`. -/
theorem connect_before_inv {d1 : Doc} {w l : Nat} {l₁ l₂ : List Nat}
    (hlf : d1.lf = some l)
    (hc : d1.cells = l₁ ++ w :: l :: l₂)
    (hseg : seg d1.prevp d1.nextp none (l₁ ++ l :: l₂) none)
    (hnd : (l₁ ++ w :: l :: l₂).Nodup) :
    docInv (connectWidget d1 w .before) := by
  obtain ⟨hsegl₁, hseg₂⟩ := seg_split hseg
  obtain ⟨hpl, hnl, hsegtail⟩ := hseg₂
  have hmidw := nodup_mid_facts hnd
  have hwl₁ : w ∉ l₁ := hmidw.1
  have hwl : w ≠ l := fun he => hmidw.2.1 (by simp [he])
  have hwl₂ : w ∉ l₂ := fun he => hmidw.2.1 (by simp [he])
  have hmidl := nodup_mid_facts (show ((l₁ ++ [w]) ++ l :: l₂).Nodup by simpa using hnd)
  have hll₁ : l ∉ l₁ := fun he => hmidl.1 (by simp [he])
  have hll₂ : l ∉ l₂ := hmidl.2.1
  constructor
  · simp only [connectWidget, hlf]
    rcases List.eq_nil_or_concat l₁ with rfl | ⟨m, p, rfl⟩
    · have hprv : d1.prevp l = none := by simpa [lastO] using hpl
      rw [hprv]
      simp only [hc, List.nil_append]
      refine ⟨?_, ?_, ?_, ?_, ?_⟩
      · simp [upd]
      · simp [upd, headO]
      · simp [upd, Ne.symm hwl]
      · simp [upd, Ne.symm hwl, hwl, hnl]
      · exact seg_congr hsegtail (fun x hx => by
          have hxw : x ≠ w := fun he => hwl₂ (he ▸ hx)
          have hxl : x ≠ l := fun he => hll₂ (he ▸ hx)
          constructor
          · simp [upd, hxw, hxl]
          · simp [upd, hxw])
    · simp only [List.concat_eq_append] at hc hnd hsegl₁ hpl
      have hprv : d1.prevp l = some p := by
        rw [hpl, lastO_append]
        rfl
      rw [hprv]
      simp only [hc]
      obtain ⟨hsegm, hsegp⟩ := seg_split hsegl₁
      obtain ⟨hpp, hnp, -⟩ := hsegp
      have hdm := nodup_mid_disj hnd
      have hpw : p ≠ w := (hdm p (by simp)).1
      have hpl' : p ≠ l := fun he => (hdm p (by simp)).2 (by simp [he])
      have hpl₂ : p ∉ l₂ := fun he => (hdm p (by simp)).2 (by simp [he])
      have hmp : ∀ x ∈ m, x ≠ w ∧ x ≠ l ∧ x ≠ p ∧ x ∉ l₂ := by
        intro x hx
        have h1 := (hdm x (by simp [hx])).1
        have h2 := (hdm x (by simp [hx])).2
        have hmnd : (m ++ [p]).Nodup := by
          rw [List.nodup_append] at hnd
          exact hnd.1
        have hxp : x ≠ p := by
          intro he
          have := nodup_mid_facts (show (m ++ p :: []).Nodup by simpa using hmnd)
          exact this.1 (he ▸ hx)
        exact ⟨h1, fun he => h2 (by simp [he]), hxp, fun he => h2 (by simp [he])⟩
      have hjoin : (m ++ [p]) ++ w :: l :: l₂ = m ++ (p :: w :: l :: l₂) := by simp
      rw [hjoin]
      refine seg_join ?_ ?_
      · exact seg_congr hsegm (fun x hx => by
          obtain ⟨hxw, hxl, hxp, -⟩ := hmp x hx
          constructor
          · simp [upd, hxw, hxl]
          · simp [upd, hxw, hxp])
      · refine ⟨?_, ?_, ?_, ?_, ?_, ?_, ?_⟩
        · simp only [headO] at hsegm ⊢
          simp [upd, hpw, hpl', hpp]
        · simp [upd, hpw, upd_same, headO]
        · simp [upd, headO]
        · simp [upd, Ne.symm hpw, headO]
        · simp [upd, Ne.symm hwl]
        · simp [upd, Ne.symm hwl, Ne.symm hpl', headO, hnl]
        · exact seg_congr hsegtail (fun x hx => by
            have hxw : x ≠ w := fun he => hwl₂ (he ▸ hx)
            have hxl : x ≠ l := fun he => hll₂ (he ▸ hx)
            have hxp : x ≠ p := fun he => hpl₂ (he ▸ hx)
            constructor
            · simp [upd, hxw, hxl]
            · simp [upd, hxw, hxp])
  · simp only [connectWidget, hlf]
    cases d1.prevp l with
    | none => simpa [hc] using hnd
    | some p => simpa [hc] using hnd

theorem removeCell_cells (d : Doc) (c : Nat) :
    (removeCell d c).1.cells = eraseId d.cells c := by
  simp only [removeCell, disconnectD]
  cases d.prevp c <;> cases d.nextp c <;> rfl

theorem removeCell_fields (d : Doc) (c : Nat) :
    (removeCell d c).1.kindOf = d.kindOf ∧ (removeCell d c).1.textOf = d.textOf ∧
    (removeCell d c).1.lf = d.lf := by
  simp only [removeCell, disconnectD]
  cases d.prevp c <;> cases d.nextp c <;> exact ⟨rfl, rfl, rfl⟩

theorem removeCell_maps (d : Doc) (c : Nat) :
    ((removeCell d c).1.nextp = match d.prevp c with
      | some p => upd d.nextp p (d.nextp c)
      | none => d.nextp) ∧
    ((removeCell d c).1.prevp = match d.nextp c with
      | some n => upd d.prevp n (d.prevp c)
      | none => d.prevp) ∧
    ((removeCell d c).2 = match d.nextp c with
      | some n => some n
      | none =>
        match d.prevp c with
        | some p => some p
        | none => none) := by
  simp only [removeCell, disconnectD]
  cases d.prevp c <;> cases d.nextp c <;> exact ⟨rfl, rfl, rfl⟩

/-- `disconnect` followed by `remove` on a mounted cell: the cell leaves
the sequence, the chain is intact, and the returned focus target is the
successor if any, else the predecessor, else nothing. -/
theorem removeCell_spec {d : Doc} {c : Nat} {l₁ l₂ : List Nat}
    (hinv : docInv d) (hc : d.cells = l₁ ++ c :: l₂) :
    (removeCell d c).1.cells = l₁ ++ l₂ ∧ docInv (removeCell d c).1 ∧
    (removeCell d c).2 = headO l₂ (lastO l₁ none) := by
  obtain ⟨hseg0, hnd0⟩ := hinv
  have hseg := hseg0
  rw [hc] at hseg
  have hnd := hnd0
  rw [hc] at hnd
  obtain ⟨hsegl₁, hseg₂⟩ := seg_split hseg
  obtain ⟨hpc, hnc, hsegtail⟩ := hseg₂
  have hmid := nodup_mid_facts hnd
  have hd := nodup_mid_disj hnd
  have hcells : (removeCell d c).1.cells = l₁ ++ l₂ := by
    rw [removeCell_cells, hc, eraseId_eq hmid.1]
  obtain ⟨hmn, hmp, hmr⟩ := removeCell_maps d c
  refine ⟨hcells, ⟨?_, by rw [hcells]; exact hmid.2.2⟩, ?_⟩
  · -- the chain of the shortened document
    rw [hcells, hmn, hmp]
    rcases List.eq_nil_or_concat l₁ with rfl | ⟨m, p, rfl⟩
    · have hpcEq : d.prevp c = none := by simpa [lastO] using hpc
      cases l₂ with
      | nil => trivial
      | cons n l₂' =>
        have hncEq : d.nextp c = some n := by simpa [headO] using hnc
        simp only [hpcEq, hncEq, List.nil_append]
        obtain ⟨hpn, hnn, hsegt⟩ := hsegtail
        have hnd' : (n :: l₂').Nodup := (List.nodup_cons.mp (by simpa using hnd)).2
        have hnl₂ : n ∉ l₂' := (List.nodup_cons.mp hnd').1
        refine ⟨by simp [upd, hpcEq], hnn, ?_⟩
        · exact seg_congr hsegt (fun x hx => by
            have hxn : x ≠ n := fun he => hnl₂ (he ▸ hx)
            exact ⟨by simp [upd, hxn], rfl⟩)
    · simp only [List.concat_eq_append] at hpc hsegl₁ hnd hd hmid
      simp only [List.concat_eq_append]
      have hpcEq : d.prevp c = some p := by
        rw [hpc, lastO_append]
        rfl
      obtain ⟨hsegm, hsegp⟩ := seg_split hsegl₁
      obtain ⟨hpp, hnp, -⟩ := hsegp
      have hpm : p ∉ m := by
        have := nodup_mid_facts (show (m ++ p :: c :: l₂).Nodup by simpa using hnd)
        exact this.1
      cases l₂ with
      | nil =>
        have hncEq : d.nextp c = none := by simpa [headO] using hnc
        simp only [hpcEq, hncEq, List.append_nil]
        refine seg_join ?_ ?_
        · exact seg_congr hsegm (fun x hx => by
            have hxp : x ≠ p := fun he => hpm (he ▸ hx)
            exact ⟨rfl, by simp [upd, hxp]⟩)
        · refine ⟨?_, ?_, trivial⟩
          · simpa [headO] using hpp
          · simp [upd, hncEq, headO]
      | cons n l₂' =>
        have hncEq : d.nextp c = some n := by simpa [headO] using hnc
        simp only [hpcEq, hncEq]
        obtain ⟨hpn, hnn, hsegt⟩ := hsegtail
        have hnd' : (n :: l₂').Nodup :=
          ((nodup_mid_facts hnd).2.2).sublist
            (List.sublist_append_right _ _)
        have hnl₂ : n ∉ l₂' := (List.nodup_cons.mp hnd').1
        have hpn' : p ≠ n := fun he => (hd p (by simp)).2 (by simp [he])
        have hpl₂ : p ∉ l₂' := fun he => (hd p (by simp)).2 (by simp [he])
        have hjoin : (m ++ [p]) ++ n :: l₂' = m ++ (p :: n :: l₂') := by simp
        rw [hjoin]
        refine seg_join ?_ ?_
        · exact seg_congr hsegm (fun x hx => by
            have hxp : x ≠ p := fun he => hpm (he ▸ hx)
            have hxn : x ≠ n := fun he => (hd x (by simp [hx])).2 (by simp [he])
            exact ⟨by simp [upd, hxn], by simp [upd, hxp]⟩)
        · refine ⟨?_, ?_, ?_, ?_, ?_⟩
          · simp [upd, hpn', hpp]
          · simp [upd, headO]
          · simp [upd, headO]
          · simp [upd, Ne.symm hpn', hnn]
          · exact seg_congr hsegt (fun x hx => by
              have hxn : x ≠ n := fun he => hnl₂ (he ▸ hx)
              have hxp : x ≠ p := fun he => hpl₂ (he ▸ hx)
              exact ⟨by simp [upd, hxn], by simp [upd, hxp]⟩)
  · -- the returned focus target
    rw [hmr]
    cases l₂ with
    | nil =>
      have hncEq : d.nextp c = none := by simpa [headO] using hnc
      rw [hncEq]
      rcases List.eq_nil_or_concat l₁ with rfl | ⟨m, p, rfl⟩
      · have hpcEq : d.prevp c = none := by simpa [lastO] using hpc
        rw [hpcEq]
        rfl
      · simp only [List.concat_eq_append] at hpc
        have hpcEq : d.prevp c = some p := by
          rw [hpc, lastO_append]
          rfl
        rw [hpcEq]
        simp [headO, lastO_append, lastO]
    | cons n l₂' =>
      have hncEq : d.nextp c = some n := by simpa [headO] using hnc
      rw [hncEq]
      rfl

/-- `action_move_down` on a focused cell with a successor: the cell and
its successor swap places, the chain is intact and the clone (same id) is
focused. -/
theorem moveDown_spec {d : Doc} {c n : Nat} {l₁ l₂ : List Nat}
    (hinv : docInv d) (hlf : d.lf = some c) (hc : d.cells = l₁ ++ c :: n :: l₂) :
    (moveDown d).cells = l₁ ++ n :: c :: l₂ ∧ docInv (moveDown d) ∧
    (moveDown d).lf = some c ∧ (moveDown d).prevp c = some n ∧
    (moveDown d).kindOf = d.kindOf ∧ (moveDown d).textOf = d.textOf := by
  obtain ⟨hseg0, hnd0⟩ := hinv
  have hseg := hseg0
  rw [hc] at hseg
  have hnd := hnd0
  rw [hc] at hnd
  obtain ⟨hsegl₁, hseg₂⟩ := seg_split hseg
  obtain ⟨hpc, hnc, hsegtail⟩ := hseg₂
  obtain ⟨hpn, hnn, hsegt⟩ := hsegtail
  have hncEq : d.nextp c = some n := by simpa [headO] using hnc
  have hd := nodup_mid_disj hnd
  have hmidc := nodup_mid_facts hnd
  have hmidn := nodup_mid_facts (show ((l₁ ++ [c]) ++ n :: l₂).Nodup by simpa using hnd)
  have hcl₁ : c ∉ l₁ := hmidc.1
  have hcn : c ≠ n := fun he => hmidc.2.1 (by simp [he])
  have hcl₂ : c ∉ l₂ := fun he => hmidc.2.1 (by simp [he])
  have hnl₁ : n ∉ l₁ := fun he => hmidn.1 (by simp [he])
  have hnc' : n ≠ c := Ne.symm hcn
  have hnl₂ : n ∉ l₂ := hmidn.2.1
  have hl₂nd : l₂.Nodup := by
    rw [List.nodup_append, List.nodup_cons, List.nodup_cons] at hnd
    exact hnd.2.1.2.2
  have h1 : insertAfterId d.cells n c = (l₁ ++ [c]) ++ n :: c :: l₂ := by
    rw [hc, show l₁ ++ c :: n :: l₂ = (l₁ ++ [c]) ++ n :: l₂ by simp]
    exact insertAfterId_eq (by simp [hnl₁, hnc']) c
  have h2 : eraseId ((l₁ ++ [c]) ++ n :: c :: l₂) c = l₁ ++ n :: c :: l₂ := by
    rw [show (l₁ ++ [c]) ++ n :: c :: l₂ = l₁ ++ c :: n :: c :: l₂ by simp]
    exact eraseId_eq hcl₁
  have hcells : (moveDown d).cells = l₁ ++ n :: c :: l₂ := by
    simp only [moveDown, hlf, hncEq]
    rw [h1, h2]
  have hndNew : (l₁ ++ n :: c :: l₂).Nodup := by
    rw [List.nodup_append] at hnd ⊢
    obtain ⟨hl₁, hmidnd, hdisj⟩ := hnd
    refine ⟨hl₁, ?_, ?_⟩
    · rw [List.nodup_cons]
      refine ⟨by simp [hnc', hnl₂], ?_⟩
      rw [List.nodup_cons]
      exact ⟨hcl₂, hl₂nd⟩
    · intro x hx hmem
      apply hdisj hx
      simp only [List.mem_cons] at hmem ⊢
      tauto
  refine ⟨hcells, ⟨?_, by rw [hcells]; exact hndNew⟩, ?_, ?_, ?_, ?_⟩
  · -- the chain after the pointer surgery
    rw [hcells]
    rcases List.eq_nil_or_concat l₁ with rfl | ⟨m, p, rfl⟩
    · have hpcEq : d.prevp c = none := by simpa [lastO] using hpc
      simp only [moveDown, hlf, hncEq, hpcEq, List.nil_append]
      cases l₂ with
      | nil =>
        have hnnEq : d.nextp n = none := by simpa [headO] using hnn
        simp only [hnnEq]
        refine ⟨?_, ?_, ?_, ?_, trivial⟩
        · simp [upd, hnc', headO]
        · simp [upd, headO]
        · simp [upd, headO]
        · simp [upd, hcn, headO]
      | cons q l₂' =>
        have hnnEq : d.nextp n = some q := by simpa [headO] using hnn
        simp only [hnnEq]
        obtain ⟨hpq, hnq, hsegt'⟩ := hsegt
        have hql₂' : q ∉ l₂' := (List.nodup_cons.mp hl₂nd).1
        have hqc : q ≠ c := fun he => hcl₂ (by simp [← he])
        have hqn : q ≠ n := fun he => hnl₂ (by simp [← he])
        refine ⟨?_, ?_, ?_, ?_, ?_, ?_, ?_⟩
        · simp [upd, hnc', Ne.symm hqn, headO]
        · simp [upd, headO]
        · simp [upd, headO]
        · simp [upd, hcn, headO]
        · simp [upd, hqc, Ne.symm hqc, headO]
        · simp [upd, hqn, hqc, hnq]
        · exact seg_congr hsegt' (fun x hx => by
            have hxq : x ≠ q := fun he => hql₂' (he ▸ hx)
            have hxc : x ≠ c := fun he => hcl₂ (he ▸ List.mem_cons_of_mem q hx)
            have hxn : x ≠ n := fun he => hnl₂ (he ▸ List.mem_cons_of_mem q hx)
            exact ⟨by simp [upd, hxc, hxq, hxn], by simp [upd, hxn, hxc]⟩)
    · simp only [List.concat_eq_append] at hpc hsegl₁ hnd hd hcl₁ hnl₁ hcells ⊢
      have hpcEq : d.prevp c = some p := by
        rw [hpc, lastO_append]
        rfl
      obtain ⟨hsegm, hsegp⟩ := seg_split hsegl₁
      obtain ⟨hpp, hnp, -⟩ := hsegp
      simp only [headO] at hsegm
      have hpm : p ∉ m := by
        have := nodup_mid_facts (show (m ++ p :: c :: n :: l₂).Nodup by simpa using hnd)
        exact this.1
      have hpc' : p ≠ c := (hd p (by simp)).1
      have hpn' : p ≠ n := fun he => (hd p (by simp)).2 (by simp [he])
      have hpl₂ : p ∉ l₂ := fun he => (hd p (by simp)).2 (by simp [he])
      have hnp' : n ≠ p := Ne.symm hpn'
      simp only [moveDown, hlf, hncEq, hpcEq]
      have hqScrut : upd d.nextp p (some n) n = d.nextp n := upd_ne _ _ _ hnp'
      rw [hqScrut]
      have hjoin : (m ++ [p]) ++ n :: c :: l₂ = m ++ (p :: n :: c :: l₂) := by simp
      rw [hjoin]
      cases l₂ with
      | nil =>
        have hnnEq : d.nextp n = none := by simpa [headO] using hnn
        simp only [hnnEq]
        refine seg_join ?_ ?_
        · exact seg_congr hsegm (fun x hx => by
            have hxp : x ≠ p := fun he => hpm (he ▸ hx)
            have hxc : x ≠ c := (hd x (by simp [hx])).1
            have hxn : x ≠ n := fun he => (hd x (by simp [hx])).2 (by simp [he])
            exact ⟨by simp [upd, hxc, hxn], by simp [upd, hxn, hxc, hxp]⟩)
        · refine ⟨?_, ?_, ?_, ?_, ?_, ?_, trivial⟩
          · simp [upd, hpc', hpn', hpp]
          · simp [upd, Ne.symm hnp', hpc', headO]
          · simp [upd, hnc', hpcEq, headO]
          · simp [upd, headO]
          · simp [upd, headO]
          · simp [upd, hcn, headO]
      | cons q l₂' =>
        have hnnEq : d.nextp n = some q := by simpa [headO] using hnn
        simp only [hnnEq]
        obtain ⟨hpq, hnq, hsegt'⟩ := hsegt
        have hql₂' : q ∉ l₂' := (List.nodup_cons.mp hl₂nd).1
        have hqc : q ≠ c := fun he => hcl₂ (by simp [← he])
        have hqn : q ≠ n := fun he => hnl₂ (by simp [← he])
        have hqp : q ≠ p := fun he => hpl₂ (by simp [← he])
        refine seg_join ?_ ?_
        · exact seg_congr hsegm (fun x hx => by
            have hxp : x ≠ p := fun he => hpm (he ▸ hx)
            have hxc : x ≠ c := (hd x (by simp [hx])).1
            have hxn : x ≠ n := fun he => (hd x (by simp [hx])).2 (by simp [he])
            have hxq : x ≠ q := fun he => (hd x (by simp [hx])).2 (by simp [he])
            exact ⟨by simp [upd, hxc, hxn, hxq], by simp [upd, hxn, hxc, hxp]⟩)
        · refine ⟨?_, ?_, ?_, ?_, ?_, ?_, ?_, ?_, ?_⟩
          · simp [upd, hpc', hpn', Ne.symm hqp, hpp]
          · simp [upd, Ne.symm hnp', hpc', headO]
          · simp [upd, hnc', Ne.symm hqn, hpcEq, headO]
          · simp [upd, headO]
          · simp [upd, headO]
          · simp [upd, hcn, headO]
          · simp [upd, hqc, Ne.symm hqc, headO]
          · simp [upd, hqn, hqc, hqp, hnq]
          · exact seg_congr hsegt' (fun x hx => by
              have hxq : x ≠ q := fun he => hql₂' (he ▸ hx)
              have hxc : x ≠ c := fun he => hcl₂ (he ▸ List.mem_cons_of_mem q hx)
              have hxn : x ≠ n := fun he => hnl₂ (he ▸ List.mem_cons_of_mem q hx)
              have hxp : x ≠ p := fun he => hpl₂ (he ▸ List.mem_cons_of_mem q hx)
              exact ⟨by simp [upd, hxc, hxq, hxn], by simp [upd, hxn, hxc, hxp]⟩)
  · simp only [moveDown, hlf, hncEq]
  · simp only [moveDown, hlf, hncEq]
    simp [upd]
  · simp only [moveDown, hlf, hncEq]
  · simp only [moveDown, hlf, hncEq]

/-- `action_move_up` on a focused cell with a predecessor: the cell and
its predecessor swap places, the chain is intact and the clone (same id)
is focused. -/
theorem moveUp_spec {d : Doc} {c p : Nat} {l₁ l₂ : List Nat}
    (hinv : docInv d) (hlf : d.lf = some c) (hc : d.cells = l₁ ++ p :: c :: l₂) :
    (moveUp d).cells = l₁ ++ c :: p :: l₂ ∧ docInv (moveUp d) ∧
    (moveUp d).lf = some c ∧
    (moveUp d).kindOf = d.kindOf ∧ (moveUp d).textOf = d.textOf := by
  obtain ⟨hseg0, hnd0⟩ := hinv
  have hseg := hseg0
  rw [hc] at hseg
  have hnd := hnd0
  rw [hc] at hnd
  obtain ⟨hsegl₁, hseg₂⟩ := seg_split hseg
  obtain ⟨hpp, hnp, hsegc⟩ := hseg₂
  obtain ⟨hpcv, hncv, hsegt⟩ := hsegc
  have hprvEq : d.prevp c = some p := by simpa using hpcv
  have hd := nodup_mid_disj hnd
  have hmidp := nodup_mid_facts hnd
  have hmidc := nodup_mid_facts (show ((l₁ ++ [p]) ++ c :: l₂).Nodup by simpa using hnd)
  have hpl₁ : p ∉ l₁ := hmidp.1
  have hpc' : p ≠ c := fun he => hmidp.2.1 (by simp [he])
  have hpl₂ : p ∉ l₂ := fun he => hmidp.2.1 (by simp [he])
  have hcl₁ : c ∉ l₁ := fun he => hmidc.1 (by simp [he])
  have hcp : c ≠ p := Ne.symm hpc'
  have hcl₂ : c ∉ l₂ := hmidc.2.1
  have hl₂nd : l₂.Nodup := by
    rw [List.nodup_append, List.nodup_cons, List.nodup_cons] at hnd
    exact hnd.2.1.2.2
  have h1 : eraseId d.cells c = (l₁ ++ [p]) ++ l₂ := by
    rw [hc, show l₁ ++ p :: c :: l₂ = (l₁ ++ [p]) ++ c :: l₂ by simp]
    exact eraseId_eq (by simp [hcl₁, hcp])
  have h2 : insertBeforeId ((l₁ ++ [p]) ++ l₂) p c = l₁ ++ c :: p :: l₂ := by
    rw [show (l₁ ++ [p]) ++ l₂ = l₁ ++ p :: l₂ by simp]
    exact insertBeforeId_eq hpl₁ c
  have hcells : (moveUp d).cells = l₁ ++ c :: p :: l₂ := by
    simp only [moveUp, hlf, hprvEq]
    rw [h1, h2]
  have hndNew : (l₁ ++ c :: p :: l₂).Nodup := by
    rw [List.nodup_append] at hnd ⊢
    obtain ⟨hl₁, hmidnd, hdisj⟩ := hnd
    refine ⟨hl₁, ?_, ?_⟩
    · rw [List.nodup_cons]
      refine ⟨by simp [hcp, hcl₂], ?_⟩
      rw [List.nodup_cons]
      exact ⟨hpl₂, hl₂nd⟩
    · intro x hx hmem
      apply hdisj hx
      simp only [List.mem_cons] at hmem ⊢
      tauto
  refine ⟨hcells, ⟨?_, by rw [hcells]; exact hndNew⟩, ?_, ?_, ?_⟩
  · -- the chain after the pointer surgery
    rw [hcells]
    rcases List.eq_nil_or_concat l₁ with rfl | ⟨m, a, rfl⟩
    · have hppEq : d.prevp p = none := by simpa [lastO] using hpp
      simp only [moveUp, hlf, hprvEq, List.nil_append]
      cases l₂ with
      | nil =>
        have hcnextEq : d.nextp c = none := by simpa [headO] using hncv
        simp only [hcnextEq, hppEq]
        refine ⟨?_, ?_, ?_, ?_, trivial⟩
        · simp [upd, hcp, hppEq, headO]
        · simp [upd, headO]
        · simp [upd, headO]
        · simp [upd, Ne.symm hcp, hcnextEq, headO]
      | cons n l₂' =>
        have hcnextEq : d.nextp c = some n := by simpa [headO] using hncv
        simp only [hcnextEq]
        have hnp' : n ≠ p := fun he => hpl₂ (by simp [← he])
        have hnc' : n ≠ c := fun he => hcl₂ (by simp [← he])
        have haScrut : upd d.prevp n (some p) p = d.prevp p := upd_ne _ _ _ (Ne.symm hnp')
        rw [haScrut, hppEq]
        obtain ⟨hpn, hnn, hsegt'⟩ := hsegt
        have hnl₂' : n ∉ l₂' := (List.nodup_cons.mp hl₂nd).1
        refine ⟨?_, ?_, ?_, ?_, ?_, ?_, ?_⟩
        · simp [upd, hcp, hnc', hppEq]
        · simp [upd, headO]
        · simp [upd, Ne.symm hcp, headO]
        · simp [upd, hpc', headO, hcnextEq]
        · simp [upd, hnp', hnc', headO]
        · simp [upd, hnp', hnc', hnn]
        · exact seg_congr hsegt' (fun x hx => by
            have hxn : x ≠ n := fun he => hnl₂' (he ▸ hx)
            have hxc : x ≠ c := fun he => hcl₂ (he ▸ List.mem_cons_of_mem n hx)
            have hxp : x ≠ p := fun he => hpl₂ (he ▸ List.mem_cons_of_mem n hx)
            exact ⟨by simp [upd, hxn, hxc, hxp], by simp [upd, hxc, hxp]⟩)
    · simp only [List.concat_eq_append] at hpp hsegl₁ hnd hd hcl₁ hpl₁ hcells ⊢
      have hppEq : d.prevp p = some a := by
        rw [hpp, lastO_append]
        rfl
      obtain ⟨hsegm, hsega⟩ := seg_split hsegl₁
      obtain ⟨haa, hna, -⟩ := hsega
      simp only [headO] at hsegm
      have ham : a ∉ m := by
        have := nodup_mid_facts (show (m ++ a :: p :: c :: l₂).Nodup by simpa using hnd)
        exact this.1
      have hap : a ≠ p := (hd a (by simp)).1
      have hac : a ≠ c := fun he => (hd a (by simp)).2 (by simp [he])
      have hal₂ : a ∉ l₂ := fun he => (hd a (by simp)).2 (by simp [he])
      simp only [moveUp, hlf, hprvEq]
      have hjoin : (m ++ [a]) ++ c :: p :: l₂ = m ++ (a :: c :: p :: l₂) := by simp
      rw [hjoin]
      cases l₂ with
      | nil =>
        have hcnextEq : d.nextp c = none := by simpa [headO] using hncv
        simp only [hcnextEq, hppEq]
        refine seg_join ?_ ?_
        · exact seg_congr hsegm (fun x hx => by
            have hxa : x ≠ a := fun he => ham (he ▸ hx)
            have hxp : x ≠ p := (hd x (by simp [hx])).1
            have hxc : x ≠ c := fun he => (hd x (by simp [hx])).2 (by simp [he])
            exact ⟨by simp [upd, hxc, hxp], by simp [upd, hxp, hxa, hxc]⟩)
        · refine ⟨?_, ?_, ?_, ?_, ?_, ?_, trivial⟩
          · simp [upd, hac, hap, haa]
          · simp [upd, hac, Ne.symm hac, headO]
          · simp [upd, hcp, Ne.symm hcp, headO, hppEq]
          · simp [upd, headO]
          · simp [upd, headO]
          · simp [upd, hpc', Ne.symm hap, hcnextEq, headO]
      | cons n l₂' =>
        have hcnextEq : d.nextp c = some n := by simpa [headO] using hncv
        simp only [hcnextEq]
        have hnp' : n ≠ p := fun he => hpl₂ (by simp [← he])
        have hnc' : n ≠ c := fun he => hcl₂ (by simp [← he])
        have hna' : n ≠ a := fun he => hal₂ (by simp [← he])
        have haScrut : upd d.prevp n (some p) p = d.prevp p := upd_ne _ _ _ (Ne.symm hnp')
        rw [haScrut, hppEq]
        obtain ⟨hpn, hnn, hsegt'⟩ := hsegt
        have hnl₂' : n ∉ l₂' := (List.nodup_cons.mp hl₂nd).1
        refine seg_join ?_ ?_
        · exact seg_congr hsegm (fun x hx => by
            have hxa : x ≠ a := fun he => ham (he ▸ hx)
            have hxp : x ≠ p := (hd x (by simp [hx])).1
            have hxc : x ≠ c := fun he => (hd x (by simp [hx])).2 (by simp [he])
            have hxn : x ≠ n := fun he => (hd x (by simp [hx])).2 (by simp [he])
            exact ⟨by simp [upd, hxn, hxc, hxp], by simp [upd, hxp, hxa, hxc]⟩)
        · refine ⟨?_, ?_, ?_, ?_, ?_, ?_, ?_, ?_, ?_⟩
          · simp [upd, hac, hap, Ne.symm hna', haa]
          · simp [upd, hac, Ne.symm hac, headO]
          · simp [upd, hcp, Ne.symm hcp, hnc', headO]
          · simp [upd, headO]
          · simp [upd, headO]
          · simp [upd, hpc', Ne.symm hap, hcnextEq, headO]
          · simp [upd, hnp', hnc', headO]
          · simp [upd, hnp', hna', hnc', hnn]
          · exact seg_congr hsegt' (fun x hx => by
              have hxn : x ≠ n := fun he => hnl₂' (he ▸ hx)
              have hxc : x ≠ c := fun he => hcl₂ (he ▸ List.mem_cons_of_mem n hx)
              have hxp : x ≠ p := fun he => hpl₂ (he ▸ List.mem_cons_of_mem n hx)
              have hxa : x ≠ a := fun he => hal₂ (he ▸ List.mem_cons_of_mem n hx)
              exact ⟨by simp [upd, hxn, hxc, hxp], by simp [upd, hxc, hxp, hxa]⟩)
  · simp only [moveUp, hlf, hprvEq]
  · simp only [moveUp, hlf, hprvEq]
  · simp only [moveUp, hlf, hprvEq]

theorem mem_split {l : List Nat} {a : Nat} (h : a ∈ l) :
    ∃ l₁ l₂, l = l₁ ++ a :: l₂ := by
  induction l with
  | nil => cases h
  | cons x xs ih =>
    rcases List.mem_cons.mp h with rfl | h'
    · exact ⟨[], xs, rfl⟩
    · obtain ⟨l₁, l₂, heq⟩ := ih h'
      exact ⟨x :: l₁, l₂, by simp [heq]⟩

theorem nodup_insert_at {l₁ l₂ : List Nat} {w : Nat}
    (h : (l₁ ++ l₂).Nodup) (hw : w ∉ l₁ ++ l₂) : (l₁ ++ w :: l₂).Nodup := by
  rw [List.nodup_middle, List.nodup_cons]
  exact ⟨hw, h⟩

theorem docInv_lf {x : Doc} (v : Option Nat) (h : docInv x) :
    docInv { x with lf := v } := h

theorem docInv_merge_fields {x : Doc} (t : Nat → Txt) (v : Option Nat)
    (h : docInv x) : docInv { x with textOf := t, lf := v } := h

theorem connectWidget_cells (d : Doc) (w : Nat) (pos : RelPos) :
    (connectWidget d w pos).cells = d.cells := by
  simp only [connectWidget]
  cases d.lf with
  | none => rfl
  | some l =>
    cases pos with
    | after => cases d.nextp l <;> rfl
    | before => cases d.prevp l <;> rfl

/-- Mounting a fresh cell after a mounted cell `l` and connecting it keeps
the invariant; `d1` is the document right after the mount. -/
theorem inv_newAfter {d d1 : Doc} {w l : Nat}
    (hinv : docInv d) (hw : w ∉ d.cells) (hl : l ∈ d.cells)
    (hlf1 : d1.lf = some l)
    (hcells1 : d1.cells = insertAfterId d.cells l w)
    (hprev1 : d1.prevp = upd d.prevp w none)
    (hnext1 : d1.nextp = upd d.nextp w none) :
    docInv (connectWidget d1 w .after) := by
  obtain ⟨l₁, l₂, hdec⟩ := mem_split hl
  have hll₁ : l ∉ l₁ := (nodup_mid_facts (hdec ▸ hinv.2)).1
  have hc2 : d1.cells = l₁ ++ l :: w :: l₂ := by
    rw [hcells1, hdec]
    exact insertAfterId_eq hll₁ w
  have hs2 : seg d1.prevp d1.nextp none (l₁ ++ l :: l₂) none := by
    rw [hprev1, hnext1]
    apply seg_congr (hdec ▸ hinv.1)
    intro x hx
    have hxw : x ≠ w := fun he => hw (he ▸ (by rw [hdec]; exact hx : x ∈ d.cells))
    exact ⟨upd_ne _ _ _ hxw, upd_ne _ _ _ hxw⟩
  have hn2 : (l₁ ++ l :: w :: l₂).Nodup := by
    rw [show l₁ ++ l :: w :: l₂ = (l₁ ++ [l]) ++ w :: l₂ by simp]
    apply nodup_insert_at
    · rw [show (l₁ ++ [l]) ++ l₂ = l₁ ++ l :: l₂ by simp, ← hdec]
      exact hinv.2
    · rw [show (l₁ ++ [l]) ++ l₂ = l₁ ++ l :: l₂ by simp, ← hdec]
      exact hw
  exact connect_after_inv hlf1 hc2 hs2 hn2

/-- Mounting a fresh cell before a mounted cell `l` and connecting it
keeps the invariant. -/
theorem inv_newBefore {d d1 : Doc} {w l : Nat}
    (hinv : docInv d) (hw : w ∉ d.cells) (hl : l ∈ d.cells)
    (hlf1 : d1.lf = some l)
    (hcells1 : d1.cells = insertBeforeId d.cells l w)
    (hprev1 : d1.prevp = upd d.prevp w none)
    (hnext1 : d1.nextp = upd d.nextp w none) :
    docInv (connectWidget d1 w .before) := by
  obtain ⟨l₁, l₂, hdec⟩ := mem_split hl
  have hll₁ : l ∉ l₁ := (nodup_mid_facts (hdec ▸ hinv.2)).1
  have hc2 : d1.cells = l₁ ++ w :: l :: l₂ := by
    rw [hcells1, hdec]
    exact insertBeforeId_eq hll₁ w
  have hs2 : seg d1.prevp d1.nextp none (l₁ ++ l :: l₂) none := by
    rw [hprev1, hnext1]
    apply seg_congr (hdec ▸ hinv.1)
    intro x hx
    have hxw : x ≠ w := fun he => hw (he ▸ (by rw [hdec]; exact hx : x ∈ d.cells))
    exact ⟨upd_ne _ _ _ hxw, upd_ne _ _ _ hxw⟩
  have hn2 : (l₁ ++ w :: l :: l₂).Nodup := by
    apply nodup_insert_at
    · rw [← hdec]
      exact hinv.2
    · rw [← hdec]
      exact hw
  exact connect_before_inv hlf1 hc2 hs2 hn2

theorem inv_addCell {d : Doc} {w : Nat} {k : CellKind} {pos : RelPos}
    (hinv : docInv d) (hf : focusOk d) (hw : w ∉ d.cells) :
    docInv (addCell d w k pos) := by
  cases hlf : d.lf with
  | none =>
    have hempty : d.cells = [] := by simpa [focusOk, hlf] using hf
    simp only [addCell, mountRel, connectWidget, newCellPtrs, hlf, hempty]
    constructor
    · exact ⟨by simp [upd], by simp [upd, headO], trivial⟩
    · simp
  | some l =>
    have hl : l ∈ d.cells := by simpa [focusOk, hlf] using hf
    cases pos with
    | after =>
      simp only [addCell, mountRel, hlf]
      apply inv_newAfter hinv hw hl <;> rfl
    | before =>
      simp only [addCell, mountRel, hlf]
      apply inv_newBefore hinv hw hl <;> rfl

theorem inv_pasteCell {d : Doc} {w : Nat} {k : CellKind} {t : Txt}
    (hinv : docInv d) (hf : focusOk d) (hw : w ∉ d.cells) :
    docInv (pasteCell d w k t) := by
  cases hlf : d.lf with
  | none =>
    have hempty : d.cells = [] := by simpa [focusOk, hlf] using hf
    simp only [pasteCell, mountRel, connectWidget, newCellPtrs, hlf, hempty]
    constructor
    · exact ⟨by simp [upd], by simp [upd, headO], trivial⟩
    · simp
  | some l =>
    have hl : l ∈ d.cells := by simpa [focusOk, hlf] using hf
    simp only [pasteCell, mountRel, hlf]
    apply inv_newAfter hinv hw hl <;> rfl

theorem inv_splitCell {d : Doc} {w : Nat} {k : Nat}
    (hinv : docInv d) (hf : focusOk d) (hw : w ∉ d.cells) :
    docInv (splitCell d w k) := by
  cases hlf : d.lf with
  | none => simpa [splitCell, hlf] using hinv
  | some c =>
    have hc : c ∈ d.cells := by simpa [focusOk, hlf] using hf
    simp only [splitCell, hlf]
    apply inv_newAfter hinv hw hc <;> rfl

theorem inv_switchType {d : Doc} {w : Nat}
    (hinv : docInv d) (hf : focusOk d) (hw : w ∉ d.cells) :
    docInv (switchType d w) := by
  cases hlf : d.lf with
  | none => simpa [switchType, hlf] using hinv
  | some c =>
    cases hk : d.kindOf c with
    | markdown => simpa [switchType, hlf, hk] using hinv
    | code =>
      have hc : c ∈ d.cells := by simpa [focusOk, hlf] using hf
      obtain ⟨l₁, l₂, hdec⟩ := mem_split hc
      have hcl₁ : c ∉ l₁ := (nodup_mid_facts (hdec ▸ hinv.2)).1
      simp only [switchType, hlf, hk]
      apply docInv_lf
      have hinv2 : docInv (connectWidget (newCellPtrs { d with
          cells := insertAfterId d.cells c w,
          kindOf := upd d.kindOf w .markdown,
          textOf := upd d.textOf w (d.textOf c),
          lf := some c } w) w .after) := by
        apply inv_newAfter hinv hw hc <;> rfl
      have hd2cells : (connectWidget (newCellPtrs { d with
          cells := insertAfterId d.cells c w,
          kindOf := upd d.kindOf w .markdown,
          textOf := upd d.textOf w (d.textOf c),
          lf := some c } w) w .after).cells = l₁ ++ c :: w :: l₂ := by
        rw [connectWidget_cells]
        show insertAfterId d.cells c w = _
        rw [hdec]
        exact insertAfterId_eq hcl₁ w
      exact (removeCell_spec hinv2 hd2cells).2.1

theorem inv_mergeLoop (tk : CellKind) : ∀ (os : List Nat) (d : Doc) (acc : Txt),
    docInv d → (∀ x ∈ os, x ∈ d.cells) → os.Nodup →
    docInv (mergeLoop tk d acc os).1 := by
  intro os
  induction os with
  | nil =>
    intro d acc h _ _
    exact h
  | cons c rest ih =>
    intro d acc hinv hmem hnd
    simp only [mergeLoop]
    cases hr : readMergeText d tk c with
    | none => exact hinv
    | some t =>
      have hc : c ∈ d.cells := hmem c (by simp)
      obtain ⟨l₁, l₂, hdec⟩ := mem_split hc
      obtain ⟨hcells, hinv2, -⟩ := removeCell_spec hinv hdec
      refine ih _ _ hinv2 ?_ ((List.nodup_cons.mp hnd).2)
      intro x hx
      have hxc : x ≠ c := fun he => (List.nodup_cons.mp hnd).1 (he ▸ hx)
      rw [removeCell_cells, mem_eraseId hxc]
      exact hmem x (by simp [hx])

theorem inv_mergeCells {d : Doc} {target : Nat} {os : List Nat}
    (hinv : docInv d) (hmem : ∀ x ∈ os, x ∈ d.cells) (hnd : os.Nodup) :
    docInv (mergeCells d target os).1 := by
  cases os with
  | nil => exact hinv
  | cons c rest =>
    simp only [mergeCells]
    have h := inv_mergeLoop (d.kindOf target) (c :: rest) d (d.textOf target) hinv hmem hnd
    cases (mergeLoop (d.kindOf target) d (d.textOf target) (c :: rest)).2.2 with
    | true => exact docInv_merge_fields _ _ h
    | false => exact h

theorem inv_deleteCell {d : Doc} (hinv : docInv d) (hf : focusOk d) :
    docInv (deleteCell d) := by
  cases hlf : d.lf with
  | none => simpa [deleteCell, hlf] using hinv
  | some c =>
    have hc : c ∈ d.cells := by simpa [focusOk, hlf] using hf
    obtain ⟨l₁, l₂, hdec⟩ := mem_split hc
    obtain ⟨-, hinv2, -⟩ := removeCell_spec hinv hdec
    simp only [deleteCell, hlf]
    exact docInv_lf _ hinv2

theorem inv_moveDown {d : Doc} (hinv : docInv d) (hf : focusOk d) :
    docInv (moveDown d) := by
  cases hlf : d.lf with
  | none => simpa [moveDown, hlf] using hinv
  | some c =>
    cases hnc : d.nextp c with
    | none => simpa [moveDown, hlf, hnc] using hinv
    | some n =>
      have hc : c ∈ d.cells := by simpa [focusOk, hlf] using hf
      rcases seg_mem_next hinv.1 hc hnc with ⟨l₁, heq, hnv⟩ | ⟨l₁, l₂, heq⟩
      · simp at hnv
      · exact (moveDown_spec hinv hlf heq).2.1

theorem inv_moveUp {d : Doc} (hinv : docInv d) (hf : focusOk d) :
    docInv (moveUp d) := by
  cases hlf : d.lf with
  | none => simpa [moveUp, hlf] using hinv
  | some c =>
    cases hpc : d.prevp c with
    | none => simpa [moveUp, hlf, hpc] using hinv
    | some p =>
      have hc : c ∈ d.cells := by simpa [focusOk, hlf] using hf
      rcases seg_mem_prev hinv.1 hc hpc with ⟨l₂, heq, hpv⟩ | ⟨l₁, l₂, heq⟩
      · simp at hpv
      · exact (moveUp_spec hinv hlf heq).2.1

theorem inv_applyOp {d : Doc} {o : DocOp}
    (hinv : docInv d) (hf : focusOk d) (hok : opOk d o) :
    docInv (applyOp d o) := by
  cases o with
  | insertA w k => exact inv_addCell hinv hf hok
  | insertB w k => exact inv_addCell hinv hf hok
  | del => exact inv_deleteCell hinv hf
  | mvUp => exact inv_moveUp hinv hf
  | mvDown => exact inv_moveDown hinv hf
  | mergeO t os => exact inv_mergeCells hinv hok.1 hok.2
  | splitO w k => exact inv_splitCell hinv hf hok
  | switchO w => exact inv_switchType hinv hf hok
  | pasteO clip w =>
    cases clip with
    | none => exact hinv
    | some kt => exact inv_pasteCell hinv hf hok

/-! Serialization lemmas. -/

theorem loadGo_roundTrip (ids : Nat → String) :
    ∀ (d : List NCell) (idx : Nat) (w? : Option NCell) (acc : List NCell),
    (∀ c ∈ d, cellIdOf c ≠ "") →
    loadCellsGo ids idx w? acc (d.map cellToNb) = .ok (acc.reverse ++ d) := by
  intro d
  induction d with
  | nil =>
    intro idx w? acc _
    simp [loadCellsGo]
  | cons c rest ih =>
    intro idx w? acc hids
    cases c with
    | codeC t outs ec md cid =>
      have hcid : cid ≠ "" := hids (.codeC t outs ec md cid) (by simp)
      have ih' := ih (idx + 1) (some (.codeC t outs ec md cid))
        ((NCell.codeC t outs ec md cid) :: acc) (fun x hx => hids x (by simp [hx]))
      simp only [List.map_cons, cellToNb, loadCellsGo, codeFromNb, joinSource, orFresh,
        hcid, if_false, if_true, reduceIte]
      rw [ih']
      simp
    | mdC t md cid =>
      have hcid : cid ≠ "" := hids (.mdC t md cid) (by simp)
      have ih' := ih (idx + 1) (some (.mdC t md cid))
        ((NCell.mdC t md cid) :: acc) (fun x hx => hids x (by simp [hx]))
      simp only [List.map_cons, cellToNb, loadCellsGo, mdFromNb, joinSource, orFresh,
        hcid, if_false, if_true, reduceIte]
      rw [ih']
      simp

theorem codeFromNb_inv {r : RawCell} {f : String} {c : NCell}
    (h : codeFromNb r f = some c) :
    ∃ ec md src outs, r.cell_type = some "code" ∧ r.execution_count = some ec ∧
      r.metadata = some md ∧ r.source = some src ∧ r.outputs = some outs ∧
      c = .codeC (joinSource src) outs ec md (orFresh r.id f) := by
  unfold codeFromNb at h
  rcases hA : r.cell_type with _ | ct <;> rw [hA] at h <;>
    rcases hB : r.execution_count with _ | ec <;> rw [hB] at h <;>
      rcases hC : r.metadata with _ | md <;> rw [hC] at h <;>
        rcases hD : r.source with _ | src <;> rw [hD] at h <;>
          rcases hE : r.outputs with _ | outs <;> rw [hE] at h
  all_goals try exact Option.noConfusion h
  by_cases hcode : ct = "code"
  · subst hcode
    exact ⟨ec, md, src, outs, rfl, rfl, rfl, rfl, rfl, (Option.some.inj h).symm⟩
  · have h' : (if ct = "code" then
        some (NCell.codeC (joinSource src) outs ec md (orFresh r.id f))
      else none) = some c := h
    rw [if_neg hcode] at h'
    exact Option.noConfusion h'

theorem mdFromNb_inv {r : RawCell} {f : String} {c : NCell}
    (h : mdFromNb r f = some c) :
    ∃ md src, r.cell_type = some "markdown" ∧
      r.metadata = some md ∧ r.source = some src ∧
      c = .mdC (joinSource src) md (orFresh r.id f) := by
  unfold mdFromNb at h
  rcases hA : r.cell_type with _ | ct <;> rw [hA] at h <;>
    rcases hC : r.metadata with _ | md <;> rw [hC] at h <;>
      rcases hD : r.source with _ | src <;> rw [hD] at h
  all_goals try exact Option.noConfusion h
  by_cases hmd : ct = "markdown"
  · subst hmd
    exact ⟨md, src, rfl, rfl, rfl, (Option.some.inj h).symm⟩
  · have h' : (if ct = "markdown" then
        some (NCell.mdC (joinSource src) md (orFresh r.id f))
      else none) = some c := h
    rw [if_neg hmd] at h'
    exact Option.noConfusion h'

theorem loadGo_error (ids : Nat → String) :
    ∀ (rs : List RawCell) (idx : Nat) (w? : Option NCell) (acc : List NCell),
    (∃ r ∈ rs, missingRequired r) →
    ∃ e, loadCellsGo ids idx w? acc rs = .error e := by
  intro rs
  induction rs with
  | nil =>
    intro idx w? acc h
    simp at h
  | cons r rest ih =>
    intro idx w? acc h
    have hrest : ¬ missingRequired r → ∃ x ∈ rest, missingRequired x := by
      intro hnm
      rcases h with ⟨x, hx, hmx⟩
      rcases List.mem_cons.mp hx with rfl | hx'
      · exact absurd hmx hnm
      · exact ⟨x, hx', hmx⟩
    cases hct : r.cell_type with
    | none =>
      simp only [loadCellsGo, hct]
      exact ⟨_, rfl⟩
    | some t =>
      simp only [loadCellsGo, hct]
      by_cases htc : t = "code"
      · subst htc
        rw [if_pos rfl]
        cases hcf : codeFromNb r (ids idx) with
        | none => exact ⟨_, rfl⟩
        | some cNew =>
          have hnm : ¬ missingRequired r := by
            intro hm
            obtain ⟨ec, md, src, outs, -, hB, hC, hD, hE, -⟩ := codeFromNb_inv hcf
            rcases hm with h0 | ⟨-, h2⟩ | ⟨h1, -⟩
            · rw [h0] at hct
              cases hct
            · rcases h2 with hh | hh | hh | hh <;>
                rw [Option.isNone_iff_eq_none] at hh <;>
                simp_all
            · rw [hct] at h1
              exact absurd (Option.some.inj h1) (by decide)
          exact ih _ _ _ (hrest hnm)
      · rw [if_neg htc]
        by_cases htm : t = "markdown"
        · subst htm
          rw [if_pos rfl]
          cases hcf : mdFromNb r (ids idx) with
          | none => exact ⟨_, rfl⟩
          | some cNew =>
            have hnm : ¬ missingRequired r := by
              intro hm
              obtain ⟨md, src, -, hC, hD, -⟩ := mdFromNb_inv hcf
              rcases hm with h0 | ⟨h1, -⟩ | ⟨-, h2⟩
              · rw [h0] at hct
                cases hct
              · rw [hct] at h1
                exact absurd (Option.some.inj h1) (by decide)
              · rcases h2 with hh | hh <;>
                  rw [Option.isNone_iff_eq_none] at hh <;>
                  simp_all
            exact ih _ _ _ (hrest hnm)
        · rw [if_neg htm]
          have hnm : ¬ missingRequired r := by
            intro hm
            rcases hm with h0 | ⟨h1, -⟩ | ⟨h1, -⟩
            · rw [h0] at hct
              cases hct
            · rw [h1] at hct
              exact htc (Option.some.inj hct).symm
            · rw [h1] at hct
              exact htm (Option.some.inj hct).symm
          cases w? with
          | none => exact ⟨_, rfl⟩
          | some w => exact ih _ _ _ (hrest hnm)

theorem loadGo_meta (ids : Nat → String) :
    ∀ (rs : List RawCell) (idx : Nat) (w? : Option NCell) (acc cs : List NCell),
    (∀ r ∈ rs, r.cell_type = some "code" ∨ r.cell_type = some "markdown") →
    loadCellsGo ids idx w? acc rs = .ok cs →
    cs.map (fun c => (cellToNb c).metadata) =
      acc.reverse.map (fun c => (cellToNb c).metadata) ++ rs.map RawCell.metadata := by
  intro rs
  induction rs with
  | nil =>
    intro idx w? acc cs _ hok
    simp only [loadCellsGo, Except.ok.injEq] at hok
    subst hok
    simp
  | cons r rest ih =>
    intro idx w? acc cs hdecl hok
    rcases hdecl r (by simp) with hct | hct
    · simp only [loadCellsGo, hct] at hok
      rw [if_pos trivial] at hok
      cases hcf : codeFromNb r (ids idx) with
      | none =>
        rw [hcf] at hok
        cases hok
      | some cNew =>
        rw [hcf] at hok
        obtain ⟨ec, md, src, outs, -, -, hC, -, -, hcell⟩ := codeFromNb_inv hcf
        have hmeta : (cellToNb cNew).metadata = r.metadata := by
          rw [hcell, cellToNb, hC]
        have h := ih (idx + 1) (some cNew) (cNew :: acc) cs
          (fun x hx => hdecl x (by simp [hx])) hok
        rw [h]
        simp [hmeta]
    · simp only [loadCellsGo, hct] at hok
      rw [if_neg (by decide : ¬ ("markdown" : String) = "code"), if_pos trivial] at hok
      cases hcf : mdFromNb r (ids idx) with
      | none =>
        rw [hcf] at hok
        cases hok
      | some cNew =>
        rw [hcf] at hok
        obtain ⟨md, src, -, hC, -, hcell⟩ := mdFromNb_inv hcf
        have hmeta : (cellToNb cNew).metadata = r.metadata := by
          rw [hcell, cellToNb, hC]
        have h := ih (idx + 1) (some cNew) (cNew :: acc) cs
          (fun x hx => hdecl x (by simp [hx])) hok
        rw [h]
        simp [hmeta]

theorem connectWidget_fields (d : Doc) (w : Nat) (pos : RelPos) :
    (connectWidget d w pos).kindOf = d.kindOf ∧
    (connectWidget d w pos).textOf = d.textOf := by
  simp only [connectWidget]
  cases d.lf with
  | none => exact ⟨rfl, rfl⟩
  | some l =>
    cases pos with
    | after => cases d.nextp l <;> exact ⟨rfl, rfl⟩
    | before => cases d.prevp l <;> exact ⟨rfl, rfl⟩

/-! The claims. -/

/-- C1: after every structural operation of §4.1 — insert after/before,
delete, move up, move down, merge, split, switch type, paste, including
their no-op invocations — run on a well-formed document with a valid focus
and the operation's fresh-id and selection side conditions, any two cells
at adjacent positions of the mounted sequence point at each other through
`nextp`/`prevp`. -/
theorem C1_structural_ops_neighbor_agreement {d : Doc} {o : DocOp}
    (hinv : docInv d) (hf : focusOk d) (hok : opOk d o) :
    adjAgrees (applyOp d o) :=
  adjAgrees_of_docInv (inv_applyOp hinv hf hok)

theorem C1_witness :
    docInv dThree ∧ focusOk dThree ∧ opOk dThree DocOp.del ∧
    adjAgrees (applyOp dThree DocOp.del) :=
  ⟨by decide, by decide, trivial,
    C1_structural_ops_neighbor_agreement (by decide) (by decide) trivial⟩

/-- C2: serializing cells with `to_nb` and loading the resulting record
back reproduces exactly the same cells — sources, metadata, outputs,
execution counts and ids all equal — provided every cell id is nonempty,
which the cell constructors guarantee (`cell_id or get_cell_id()`). -/
theorem C2_serialization_round_trip (ids : Nat → String) (ki ks li : Meta)
    (nbf nbfm : Int) (cells : List NCell)
    (hids : ∀ c ∈ cells, cellIdOf c ≠ "") :
    loadNotebook ids (notebookToNb ki ks li nbf nbfm cells) = .ok cells := by
  have h := loadGo_roundTrip ids cells 0 none [] hids
  simpa [loadNotebook, loadCells, notebookToNb] using h

theorem C2_witness :
    (∀ c ∈ sampleCells, cellIdOf c ≠ "") ∧
    loadNotebook (fun _ => "g") (notebookToNb [] [] [] 4 5 sampleCells)
      = .ok sampleCells :=
  ⟨by decide,
    C2_serialization_round_trip (fun _ => "g") [] [] [] 4 5 sampleCells (by decide)⟩

/-- C3 (amended): deleting the focused cell unsplices it from the sequence
and moves the focus to the cell's successor when one exists, else to its
predecessor, else to none — `disconnect` sets `last_focused` to `prev`
first and then overwrites it with `next` when a successor exists. -/
theorem C3_amended_delete_focus {d : Doc} {c : Nat} {l₁ l₂ : List Nat}
    (hinv : docInv d) (hlf : d.lf = some c) (hc : d.cells = l₁ ++ c :: l₂) :
    (deleteCell d).cells = l₁ ++ l₂ ∧
    (deleteCell d).lf = headO l₂ (lastO l₁ none) := by
  have h := removeCell_spec hinv hc
  simp only [deleteCell, hlf]
  exact ⟨h.1, h.2.2⟩

theorem C3_witness :
    docInv dThree ∧ dThree.lf = some 2 ∧ dThree.cells = [1] ++ 2 :: [3] ∧
    ((deleteCell dThree).cells = [1] ++ [3] ∧
     (deleteCell dThree).lf = headO [3] (lastO [1] none)) :=
  ⟨by decide, rfl, rfl, C3_amended_delete_focus (by decide) rfl rfl⟩

/-- C3 counterexample: in the document 1 ↔ 2 ↔ 3 with cell 2 focused both
neighbours exist, yet deleting moves the focus to the successor 3, not to
the predecessor 1 the spec claims. -/
theorem C3_counterexample_delete_focus :
    dThree.prevp 2 = some 1 ∧ dThree.nextp 2 = some 3 ∧ dThree.lf = some 2 ∧
    (deleteCell dThree).lf = some 3 := by decide

/-- C4: merging a cell of the other kind into the target does not
concatenate sources and unsplice the merged cell: reading the first
cross-kind text raises AttributeError (`cell.input_text` does not exist on
a MarkdownCell, `cell.code_area` exists on no class), so the merge aborts
with the document unchanged. -/
theorem C4_cross_kind_merge_attribute_error {d : Doc} {t c : Nat}
    {rest : List Nat} (hk : d.kindOf t ≠ d.kindOf c) :
    (mergeCells d t (c :: rest)).2 = false ∧
    (mergeCells d t (c :: rest)).1 = d := by
  have hr : readMergeText d (d.kindOf t) c = none := by
    cases h1 : d.kindOf t <;> cases h2 : d.kindOf c
    · exact absurd (h1.trans h2.symm) hk
    · simp [readMergeText, h2]
    · simp [readMergeText, h2]
    · exact absurd (h1.trans h2.symm) hk
  simp only [mergeCells, mergeLoop, hr]
  exact ⟨rfl, rfl⟩

theorem C4_witness :
    dMergeEx.kindOf 1 ≠ dMergeEx.kindOf 2 ∧
    ((mergeCells dMergeEx 1 [2]).2 = false ∧
     (mergeCells dMergeEx 1 [2]).1 = dMergeEx) :=
  ⟨by decide, C4_cross_kind_merge_attribute_error (by decide)⟩

/-- C5: the shared collapse command of a code cell sets both flags to true
whenever at least one is false and toggles both back to false only when
both are already true; hence collapse twice from Expanded is Expanded
again, and collapse once from either partially collapsed state is
BothCollapsed. -/
theorem C5_collapse_policy (a b : Bool) :
    actionCollapse ⟨a, b⟩ = (if a && b then ⟨false, false⟩ else ⟨true, true⟩) ∧
    actionCollapse (actionCollapse ⟨false, false⟩) = ⟨false, false⟩ ∧
    actionCollapse ⟨true, false⟩ = ⟨true, true⟩ ∧
    actionCollapse ⟨false, true⟩ = ⟨true, true⟩ := by
  cases a <;> cases b <;> exact ⟨rfl, rfl, rfl, rfl⟩

/-- C6: splitting the focused cell `c` at offset `k` leaves `c` holding
the first `k` characters of its source, mounts a fresh cell `w` of the
same kind holding the rest immediately after `c`, concatenating the two
sources reproduces the original exactly, and the chain invariant is
kept. -/
theorem C6_split_law {d : Doc} {c w : Nat} {l₁ l₂ : List Nat} (k : Nat)
    (hinv : docInv d) (hlf : d.lf = some c) (hw : w ∉ d.cells)
    (hc : d.cells = l₁ ++ c :: l₂) :
    (splitCell d w k).cells = l₁ ++ c :: w :: l₂ ∧
    (splitCell d w k).kindOf w = d.kindOf c ∧
    (splitCell d w k).textOf c = (d.textOf c).take k ∧
    (splitCell d w k).textOf w = (d.textOf c).drop k ∧
    (splitCell d w k).textOf c ++ (splitCell d w k).textOf w = d.textOf c ∧
    docInv (splitCell d w k) := by
  have hcmem : c ∈ d.cells := by rw [hc]; simp
  have hf : focusOk d := by
    have hiff : focusOk d ↔ c ∈ d.cells := by simp [focusOk, hlf]
    exact hiff.mpr hcmem
  have hcw : c ≠ w := fun he => hw (he ▸ hcmem)
  have hcl₁ : c ∉ l₁ := (nodup_mid_facts (hc ▸ hinv.2)).1
  have hcells : (splitCell d w k).cells = l₁ ++ c :: w :: l₂ := by
    simp only [splitCell, hlf]
    rw [connectWidget_cells]
    show insertAfterId d.cells c w = _
    rw [hc]
    exact insertAfterId_eq hcl₁ w
  have hkind : (splitCell d w k).kindOf = upd d.kindOf w (d.kindOf c) := by
    simp only [splitCell, hlf]
    exact (connectWidget_fields _ w .after).1
  have htext : (splitCell d w k).textOf
      = upd (upd d.textOf c ((d.textOf c).take k)) w ((d.textOf c).drop k) := by
    simp only [splitCell, hlf]
    exact (connectWidget_fields _ w .after).2
  have htc : (splitCell d w k).textOf c = (d.textOf c).take k := by
    rw [htext, upd_ne _ _ _ hcw, upd_same]
  have htw : (splitCell d w k).textOf w = (d.textOf c).drop k := by
    rw [htext, upd_same]
  refine ⟨hcells, ?_, htc, htw, ?_, inv_splitCell hinv hf hw⟩
  · rw [hkind, upd_same]
  · rw [htc, htw, List.take_append_drop]

theorem C6_witness :
    docInv dThree ∧ dThree.lf = some 2 ∧ 9 ∉ dThree.cells ∧
    dThree.cells = [1] ++ 2 :: [3] ∧
    ((splitCell dThree 9 1).cells = [1] ++ 2 :: 9 :: [3] ∧
     (splitCell dThree 9 1).kindOf 9 = dThree.kindOf 2 ∧
     (splitCell dThree 9 1).textOf 2 = (dThree.textOf 2).take 1 ∧
     (splitCell dThree 9 1).textOf 9 = (dThree.textOf 2).drop 1 ∧
     (splitCell dThree 9 1).textOf 2 ++ (splitCell dThree 9 1).textOf 9
       = dThree.textOf 2 ∧
     docInv (splitCell dThree 9 1)) :=
  ⟨by decide, rfl, by decide, rfl,
    C6_split_law 1 (by decide) rfl (by decide) rfl⟩

/-- C7: for a focused cell with a successor, moving it down and then up
restores the mounted order, the kinds and the texts, keeps the chain
invariant and leaves the same cell focused (each move reuses the cell's
id, so the moved cell is the same identifier at its new position); a move
with no successor (resp. no predecessor) is a no-op. -/
theorem C7_move_down_up_restores {d : Doc} {c n : Nat} {l₁ l₂ : List Nat}
    (hinv : docInv d) (hlf : d.lf = some c) (hc : d.cells = l₁ ++ c :: n :: l₂) :
    (moveUp (moveDown d)).cells = d.cells ∧
    (moveUp (moveDown d)).kindOf = d.kindOf ∧
    (moveUp (moveDown d)).textOf = d.textOf ∧
    docInv (moveUp (moveDown d)) ∧
    (moveUp (moveDown d)).lf = some c ∧
    (∀ d' : Doc, ∀ c' : Nat, d'.lf = some c' → d'.nextp c' = none →
      moveDown d' = d') ∧
    (∀ d' : Doc, ∀ c' : Nat, d'.lf = some c' → d'.prevp c' = none →
      moveUp d' = d') := by
  obtain ⟨hcells1, hinv1, hlf1, hprev1, hkind1, htext1⟩ := moveDown_spec hinv hlf hc
  obtain ⟨hcells2, hinv2, hlf2, hkind2, htext2⟩ := moveUp_spec hinv1 hlf1 hcells1
  refine ⟨by rw [hcells2, hc], by rw [hkind2, hkind1], by rw [htext2, htext1],
    hinv2, hlf2, ?_, ?_⟩
  · intro d' c' h1 h2
    simp only [moveDown, h1, h2]
  · intro d' c' h1 h2
    simp only [moveUp, h1, h2]

theorem C7_witness :
    docInv dThree ∧ dThree.lf = some 2 ∧ dThree.cells = [1] ++ 2 :: 3 :: [] ∧
    ((moveUp (moveDown dThree)).cells = dThree.cells ∧
     (moveUp (moveDown dThree)).kindOf = dThree.kindOf ∧
     (moveUp (moveDown dThree)).textOf = dThree.textOf ∧
     docInv (moveUp (moveDown dThree)) ∧
     (moveUp (moveDown dThree)).lf = some 2 ∧
     (∀ d' : Doc, ∀ c' : Nat, d'.lf = some c' → d'.nextp c' = none →
       moveDown d' = d') ∧
     (∀ d' : Doc, ∀ c' : Nat, d'.lf = some c' → d'.prevp c' = none →
       moveUp d' = d')) :=
  ⟨by decide, rfl, rfl, C7_move_down_up_restores (by decide) rfl
    (show dThree.cells = [1] ++ 2 :: 3 :: [] from rfl)⟩

/-- C8 (amended): a cell record that misses a required key for its
declared cell type — or has no `cell_type` key at all — makes the load
fail with an error and no document is built; a record whose `cell_type`
is present but neither "code" nor "markdown" is, however, silently
skipped past index 0 (see the counterexample). -/
theorem C8_amended_malformed_declared_load_fails {ids : Nat → String}
    {content : NbRecord} (h : ∃ r ∈ content.cells, missingRequired r) :
    ∃ e, loadNotebook ids content = .error e :=
  loadGo_error ids content.cells 0 none [] h

theorem C8_witness :
    (∃ r ∈ nbBadCode.cells, missingRequired r) ∧
    ∃ e, loadNotebook (fun _ => "g") nbBadCode = .error e :=
  ⟨⟨badCodeRaw, List.mem_singleton.mpr rfl, by decide⟩,
    C8_amended_malformed_declared_load_fails
      ⟨badCodeRaw, List.mem_singleton.mpr rfl, by decide⟩⟩

/-- C8 counterexample: a record of the unknown cell type "raw" after a
good cell does not fail the load: no branch of the loop assigns `widget`,
the stale previous widget is reused and its re-mount is a silent no-op,
so the load succeeds and the malformed record is silently dropped. -/
theorem C8_counterexample_raw_record_skipped :
    rawTypeRaw.cell_type = some "raw" ∧
    loadNotebook (fun _ => "g") nbGoodThenRaw = .ok [goodCodeCell] :=
  ⟨rfl, rfl⟩

/-- C9 (amended): each cell's metadata — including unrecognized keys — is
preserved verbatim through a load/save cycle, but the top level metadata
of the loaded record is not: `load_notebook` reads only `content["cells"]`
and `to_nb` rebuilds the top level metadata from the kernel description
alone. -/
theorem C9_amended_cell_metadata_preserved {ids : Nat → String}
    {content : NbRecord} {cs : List NCell} (ki ks li : Meta) (nbf nbfm : Int)
    (hdecl : ∀ r ∈ content.cells,
      r.cell_type = some "code" ∨ r.cell_type = some "markdown")
    (hok : loadNotebook ids content = .ok cs) :
    (notebookToNb ki ks li nbf nbfm cs).cells.map RawCell.metadata
      = content.cells.map RawCell.metadata ∧
    (notebookToNb ki ks li nbf nbfm cs).metadata
      = [("kernel_info", .obj ki), ("kernel_spec", .obj ks),
         ("language_info", .obj li)] := by
  constructor
  · have h := loadGo_meta ids content.cells 0 none [] cs hdecl hok
    simp only [List.reverse_nil, List.map_nil, List.nil_append] at h
    show (cs.map cellToNb).map RawCell.metadata = _
    rw [List.map_map]
    exact h
  · rfl

theorem C9_witness :
    (∀ r ∈ nbCellMeta.cells,
      r.cell_type = some "code" ∨ r.cell_type = some "markdown") ∧
    loadNotebook (fun _ => "g") nbCellMeta = .ok [mdMetaCell] ∧
    ((notebookToNb [] [] [] 4 5 [mdMetaCell]).cells.map RawCell.metadata
       = nbCellMeta.cells.map RawCell.metadata ∧
     (notebookToNb [] [] [] 4 5 [mdMetaCell]).metadata
       = [("kernel_info", .obj []), ("kernel_spec", .obj []),
          ("language_info", .obj [])]) :=
  ⟨by decide, rfl,
    C9_amended_cell_metadata_preserved [] [] [] 4 5 (by decide)
      (show loadNotebook (fun _ => "g") nbCellMeta = .ok [mdMetaCell] from rfl)⟩

/-- C9 counterexample: a custom top level metadata key of the loaded
record does not survive a load/save cycle — the load stores no top level
metadata and the save writes only the three kernel-derived keys. -/
theorem C9_counterexample_top_metadata_dropped :
    nbCustomMeta.metadata.lookup "custom" = some (JVal.str "x") ∧
    loadNotebook (fun _ => "g") nbCustomMeta = .ok [] ∧
    (notebookToNb [] [] [] 4 5 []).metadata.lookup "custom" = none :=
  ⟨rfl, rfl, rfl⟩

/-- C10: running a code cell whose editor text is empty returns without
contacting the kernel: the kernel is not invoked, nothing is ever written
to the `running` flag, and the outputs, execution count and running flag
are left unchanged. -/
theorem C10_run_empty_text_no_kernel {k : KernelSt}
    {krun : Txt → List OutRec × Option Int} {s : RunCellSt}
    (h : s.text = []) :
    (runCell k krun s).2.1 = false ∧ (runCell k krun s).2.2 = [] ∧
    (runCell k krun s).1.outputs = s.outputs ∧
    (runCell k krun s).1.execCount = s.execCount ∧
    (runCell k krun s).1.running = s.running := by
  simp only [runCell, h]
  by_cases hk : k.initialized = false
  · rw [if_pos hk]
    exact ⟨rfl, rfl, rfl, rfl, rfl⟩
  · rw [if_neg hk]
    exact ⟨rfl, rfl, rfl, rfl, rfl⟩

theorem C10_witness :
    runStEx.text = [] ∧
    ((runCell ⟨true⟩ (fun _ => ([], none)) runStEx).2.1 = false ∧
     (runCell ⟨true⟩ (fun _ => ([], none)) runStEx).2.2 = [] ∧
     (runCell ⟨true⟩ (fun _ => ([], none)) runStEx).1.outputs
       = runStEx.outputs ∧
     (runCell ⟨true⟩ (fun _ => ([], none)) runStEx).1.execCount
       = runStEx.execCount ∧
     (runCell ⟨true⟩ (fun _ => ([], none)) runStEx).1.running
       = runStEx.running) :=
  ⟨rfl, C10_run_empty_text_no_kernel rfl⟩

end Erys
